import Mathlib

/-!
Verification development for the ASF tape-validator rule-resolution and
execution engine (`asf_validator`), shallowly embedded in Lean 4.

The embedding follows the Python sources:
  * `asf_validator/util.py`        — `normalize_columns`
  * `asf_validator/engine.py`      — column maps, resolution, `run_validations`
  * `asf_validator/rules/asf_validations.py` — `_is_blank`,
    `validate_missing_required_fields`
Machine strings are modelled as Lean `String`/`List Char` (Python `.lower()` /
`[0-9A-Za-z]` act on ASCII exactly as the Lean counterparts; `.strip()` is
modelled with `Char.isWhitespace`).  Python cell values are a closed variant
type; a raised exception is an `Except` error value.
-/

namespace ASFValidator

/-- A tape cell value: Python `None`, a float `NaN`, a number, a string, a
boolean, or a container value (e.g. a `list`, on which `pd.isna` raises).
The contents of a container are irrelevant to every embedded operation, so
the `arr` constructor carries none. -/
inductive Value where
  | pynone : Value
  | nan : Value
  | num : Int → Value
  | str : String → Value
  | boolean : Bool → Value
  | arr : Value
deriving DecidableEq

/-- A Python exception class, as far as the engine distinguishes them:
`abort` is `bdb.BdbQuit` (the run-abort signal), `err` is any other
exception. -/
inductive Exc where
  | err : Exc
  | abort : Exc
deriving DecidableEq

/-- Result of invoking a rule predicate on one row's values and coercing the
result with `bool(...)`: either the coerced boolean, or a raised exception. -/
inductive PredResult where
  | ok : Bool → PredResult
  | exn : Exc → PredResult
deriving DecidableEq

/-! ## Column-name normalization (`util.normalize_columns`) -/

/-- Python `str.strip` / `str.strip("_")`: drop the characters satisfying `p`
from both ends of the list. -/
def stripEnds (p : Char → Bool) (l : List Char) : List Char :=
  ((l.dropWhile p).reverse.dropWhile p).reverse

/-- `re.sub(r"[^0-9A-Za-z]+", "_", s)`: replace every maximal run of
non-alphanumeric characters with a single underscore.  The flag records
whether the previous character was part of such a run. -/
def collapseNonAlnum : Bool → List Char → List Char
  | _, [] => []
  | inRun, c :: rest =>
    if c.isAlphanum then c :: collapseNonAlnum false rest
    else if inRun then collapseNonAlnum true rest
    else '_' :: collapseNonAlnum true rest

/-- `re.sub(r"_+", "_", s)`: collapse every run of underscores to a single
underscore. -/
def collapseUnd : Bool → List Char → List Char
  | _, [] => []
  | inRun, c :: rest =>
    if c = '_' then
      if inRun then collapseUnd true rest else '_' :: collapseUnd true rest
    else c :: collapseUnd false rest

/-- The per-column transform of `util.normalize_columns`:
`str(col).strip().lower()`, then non-alphanumeric runs to `_`, then
`.strip("_")`, then `_`-runs collapsed. -/
def cleanList (l : List Char) : List Char :=
  collapseUnd false
    (stripEnds (fun c => c = '_')
      (collapseNonAlnum false ((stripEnds Char.isWhitespace l).map Char.toLower)))

/-- `util.normalize_columns`: normalize each column name. -/
def normalize_columns (cols : List String) : List String :=
  cols.map (fun c => String.mk (cleanList c.data))

/-- `engine._normalize_name(name) = normalize_columns([name])[0]`. -/
def normalizeName (s : String) : String :=
  String.mk (cleanList s.data)

/-! ## Canonical keys (`engine._canonical_key`) -/

/-- `engine._STOPWORDS`. -/
def STOPWORDS : List String :=
  ["of", "the", "and", "or", "at", "in", "for", "to", "from"]

/-- `engine._CANONICAL_REPLACEMENTS`. -/
def CANONICAL_REPLACEMENTS : List (String × String) :=
  [("yrs", "years"), ("yr", "year"), ("pct", "percent"),
   ("num", "number"), ("nbr", "number"), ("amt", "amount")]

/-- Python `str.split("_")` on a character list: segments between underscores,
empty segments kept, `[""]` for the empty string. -/
def splitUnd : List Char → List (List Char)
  | [] => [[]]
  | c :: rest =>
    let r := splitUnd rest
    if c = '_' then [] :: r
    else
      match r with
      | [] => [[c]]
      | t :: ts => (c :: t) :: ts

/-- `engine._canonical_key`: normalize, split on `_`, drop empty tokens and
stopwords, expand abbreviations, concatenate. -/
def canonicalKey (name : String) : String :=
  let tokens := (splitUnd (cleanList name.data)).map (fun t => String.mk t)
  String.join (tokens.filterMap (fun t =>
    if t = "" ∨ t ∈ STOPWORDS then none
    else some ((CANONICAL_REPLACEMENTS.lookup t).getD t)))

/-! ## Column maps (`engine._build_column_maps`) -/

/-- `dict[str, list[str]]` with insertion-ordered keys. -/
abbrev ColumnMap := List (String × List String)

/-- `m.setdefault(k, []).append(v)`: append `v` to the entry of `k`,
creating the entry (at the end, in insertion order) if absent. -/
def mapAdd (m : ColumnMap) (k v : String) : ColumnMap :=
  match m with
  | [] => [(k, [v])]
  | (k', vs) :: rest =>
    if k' = k then (k', vs ++ [v]) :: rest else (k', vs) :: mapAdd rest k v

/-- `engine._build_column_maps`: one pass over the tape columns, recording for
each normalized key and each canonical key the list of original column names
producing it, in tape order. -/
def buildColumnMaps (cols : List String) : ColumnMap × ColumnMap :=
  cols.foldl
    (fun maps col =>
      (mapAdd maps.1 (normalizeName col) col,
       mapAdd maps.2 (canonicalKey col) col))
    ([], [])

/-! ## Column and parameter resolution (`engine._resolve_column_name`,
`engine._resolve_param_name`) -/

/-- `engine._resolve_column_name`: normalized-key match first (returning the
first column with that key), canonical-key match as fallback, else
unresolved.  The map entries are nonempty by construction, so `head?`
coincides with Python's `[0]`. -/
def resolveColumnName (name : String) (nmap cmap : ColumnMap) : Option String :=
  match nmap.lookup (normalizeName name) with
  | some cols => cols.head?
  | none =>
    match cmap.lookup (canonicalKey name) with
    | some cols => cols.head?
    | none => none

/-- `engine._PARAM_ALIASES`. -/
def PARAM_ALIASES : List (String × String) :=
  [("pbw", "primary_borrower_wage_income"),
   ("cbw", "co_borrower_wage_income"),
   ("pbo", "primary_borrower_other_income"),
   ("cbo", "co_borrower_other_income"),
   ("abti", "all_borrower_total_income"),
   ("abw", "all_borrower_wage_income"),
   ("total_borrowers", "total_number_of_borrowers"),
   ("b1_len_emp", "length_of_employment_borrower"),
   ("b2_len_emp", "length_of_employment_co_borrower"),
   ("b1_emp_ver", "borrower_employment_verification"),
   ("b2_emp_ver", "co_borrower_employment_verification"),
   ("application_date", "application_received_date"),
   ("percent_down_payment", "percentage_of_down_payment_from_borrower_own_funds"),
   ("cap_up", "initial_interest_rate_cap_change_up"),
   ("cap_down", "initial_interest_rate_cap_change_down"),
   ("first_payment_date", "first_payment_date_of_loan"),
   ("junior_drawn_amount", "junior_mortgage_drawn_amount"),
   ("lifetime_max_rate_ceiling", "lifetime_maximum_rate_ceiling"),
   ("lifetime_min_rate_floor", "lifetime_minimum_rate_floor"),
   ("borrower_fico_score", "original_primary_borrower_fico")]

/-- `_PARAM_ALIASES.get(param_name, param_name)`: the alias-substituted
display form of a parameter name. -/
def displayName (p : String) : String :=
  (PARAM_ALIASES.lookup p).getD p

/-- `engine._resolve_param_name`: alias substitution, then column
resolution. -/
def resolveParamName (p : String) (nmap cmap : ColumnMap) : Option String :=
  resolveColumnName (displayName p) nmap cmap

/-! ## Static engine configuration (`engine.py` module-level tables) -/

/-- `engine._VARARGS_RULE_COLUMNS`. -/
def VARARGS_RULE_COLUMNS : List (String × List String) :=
  [("validate_negative_incomes",
    ["primary_borrower_wage_income",
     "co_borrower_wage_income",
     "primary_borrower_other_income",
     "co_borrower_other_income",
     "all_borrower_wage_income",
     "all_borrower_total_income"])]

/-- `engine._ALLOW_MISSING_PARAM_RULES`. -/
def ALLOW_MISSING_PARAM_RULES : List String :=
  ["validate_arm_fields_populated_for_fixed_rate",
   "validate_arm_fields_required_for_adjustable_rate",
   "validate_missing_required_fields",
   "validate_most_recent_fico_recency"]

/-- `engine._WARNING_RULES`. -/
def WARNING_RULES : List String :=
  ["validate_margin_less_than_floor",
   "validate_negative_incomes",
   "validate_refi_with_less_than_1_year_in_home",
   "validate_appraised_value_over_8000000",
   "validate_total_number_of_borrowers_over_4"]

/-! ## The `_is_blank` primitive (`rules/asf_validations.py`) -/

/-- `pd.isna` as the engine exercises it: `True` for `None` and `NaN`,
`False` for scalars, and a raised exception for container values (for which
truth-testing the returned array raises). -/
def pdIsna : Value → Except Unit Bool
  | .pynone => .ok true
  | .nan => .ok true
  | .num _ => .ok false
  | .str _ => .ok false
  | .boolean _ => .ok false
  | .arr => .error ()

/-- Python `value.strip()` for a string value. -/
def stripStr (s : String) : String :=
  String.mk (stripEnds Char.isWhitespace s.data)

/-- `asf_validations._is_blank`: `None` is blank; then `pd.isna` under a
`try`/`except` (an exception falls through); then a string is blank iff it
strips to empty; anything else is not blank. -/
def isBlank (v : Value) : Bool :=
  match v with
  | .pynone => true
  | _ =>
    match pdIsna v with
    | .ok true => true
    | _ =>
      match v with
      | .str s => stripStr s == ""
      | _ => false

/-! ## Tape, rules, result records -/

/-- A tape: ordered column names and ordered rows.  A row maps a column name
to its cell value (pandas row indexing `row[col]` is only ever applied to
names in `columns`, so a total function is a faithful model). -/
structure Tape where
  columns : List String
  rows : List (String → Value)

/-- A catalogue entry, as the engine consumes it through
`inspect.signature`: the rule name, whether the signature has a
`VAR_POSITIONAL` parameter (and that parameter's name, used in the
`missing_varargs_mapping` skip record), the declared fixed parameter names in
order, and the predicate (already composed with `bool(...)` coercion). -/
structure Rule where
  name : String
  varargs : Bool
  varargsName : String
  params : List String
  func : List Value → PredResult

/-- A row of the `skipped_rules` table. -/
structure SkipRecord where
  rule : String
  reason : String
  missing_columns : String
deriving DecidableEq

/-- A row of the `issues` / `warnings` tables.  `loan_number` is `none` when
the loan-number column is not (truthily) resolved. -/
structure IssueRecord where
  rule : String
  row_index : Nat
  columns : String
  loan_number : Option Value
deriving DecidableEq

/-- A row of the `missing_required_fields` table. -/
structure MissingRecord where
  missing_required_field : String
  loan_number : Option Value
deriving DecidableEq

/-- A row of `rule_summary` / `warning_summary`. -/
structure SummaryEntry where
  rule : String
  issue_count : Nat
deriving DecidableEq

/-- The dictionary returned by `engine.run_validations`. -/
structure RunResult where
  row_count : Nat
  columns : List String
  issues : List IssueRecord
  warnings : List IssueRecord
  missing_required_fields : List MissingRecord
  rule_summary : List SummaryEntry
  warning_summary : List SummaryEntry
  skipped_rules : List SkipRecord
deriving DecidableEq

/-! ## Row evaluation (`apply_rule`, `apply_missing_required`) -/

/-- Python truthiness of `loan_number_column` (an `Optional[str]`): `None`
and the empty string are falsy. -/
def truthyCol : Option String → Option String
  | none => none
  | some s => if s = "" then none else some s

/-- The argument list built for one row: for a varargs rule,
`[row[col] for col in columns]`; otherwise
`[row[col] if col is not None else None for col in param_columns]`. -/
def buildValues (varargs : Bool) (columns : List String)
    (paramColumns : List (Option String)) (row : String → Value) : List Value :=
  if varargs then columns.map row
  else paramColumns.map (fun c =>
    match c with
    | some col => row col
    | none => Value.pynone)

/-- `engine.apply_rule`: invoke the predicate on the row's values; a raised
`bdb.BdbQuit` is re-raised, any other exception yields `True`
(fail-closed). -/
def applyRule (func : List Value → PredResult) (varargs : Bool)
    (columns : List String) (paramColumns : List (Option String))
    (row : String → Value) : Except Exc Bool :=
  match func (buildValues varargs columns paramColumns row) with
  | .ok b => .ok b
  | .exn .abort => .error .abort
  | .exn .err => .ok true

/-- `engine.apply_missing_required`: invoke the predicate on the row's values
with no exception handler, so any raised exception propagates. -/
def applyMissingRequired (func : List Value → PredResult)
    (paramColumns : List (Option String)) (row : String → Value) :
    Except Exc Bool :=
  match func (buildValues false [] paramColumns row) with
  | .ok b => .ok b
  | .exn e => .error e

/-- A sequential loop collecting results, stopping at the first uncaught
exception (models `tape_df.apply(...)` / the rule loop). -/
def collectExcept {α β : Type} (f : α → Except Exc β) : List α → Except Exc (List β)
  | [] => .ok []
  | x :: rest =>
    match f x with
    | .error e => .error e
    | .ok y =>
      match collectExcept f rest with
      | .error e => .error e
      | .ok ys => .ok (y :: ys)

/-! ## Per-rule planning and execution (`run_validations` loop body) -/

/-- The per-parameter resolution pairs of the fixed-parameter planning loop:
`(param.name, _resolve_param_name(param.name, ...))` in declared order. -/
def fixedResolutions (r : Rule) (nmap cmap : ColumnMap) : List (String × Option String) :=
  r.params.map (fun p => (p, resolveParamName p nmap cmap))

/-- The loop's `missing` list: declared names of unresolved parameters, in
declared order. -/
def fixedMissing (r : Rule) (nmap cmap : ColumnMap) : List String :=
  (fixedResolutions r nmap cmap).filterMap (fun pc =>
    match pc.2 with
    | none => some pc.1
    | some _ => none)

/-- The loop's `param_columns` list: one entry per declared parameter. -/
def fixedParamColumns (r : Rule) (nmap cmap : ColumnMap) : List (Option String) :=
  (fixedResolutions r nmap cmap).map (fun pc => pc.2)

/-- The loop's `columns` list: the resolved columns only, in order. -/
def fixedColumns (r : Rule) (nmap cmap : ColumnMap) : List String :=
  (fixedResolutions r nmap cmap).filterMap (fun pc => pc.2)

/-- The varargs planning loop's resolution pairs. -/
def varargsResolutions (columnNames : List String) (nmap cmap : ColumnMap) :
    List (String × Option String) :=
  columnNames.map (fun cn => (cn, resolveColumnName cn nmap cmap))

/-- The varargs loop's `missing` list. -/
def varargsMissing (columnNames : List String) (nmap cmap : ColumnMap) : List String :=
  (varargsResolutions columnNames nmap cmap).filterMap (fun pc =>
    match pc.2 with
    | none => some pc.1
    | some _ => none)

/-- The varargs loop's `columns` list. -/
def varargsColumns (columnNames : List String) (nmap cmap : ColumnMap) : List String :=
  (varargsResolutions columnNames nmap cmap).filterMap (fun pc => pc.2)

/-- `", ".join(l)`. -/
def joinComma (l : List String) : String :=
  String.intercalate ", " l

/-- The `display_columns` list of the missing-required-fields branch: the
resolved column when available, else the alias-substituted parameter name. -/
def displayColumns (r : Rule) (nmap cmap : ColumnMap) : List String :=
  (fixedResolutions r nmap cmap).map (fun pc =>
    match pc.2 with
    | some resolved => resolved
    | none => displayName pc.1)

/-- `engine.collect_missing_required` for one row: the display names of the
parameters whose value (the resolved cell, or `None` when unresolved) is
blank, in declared order. -/
def collectMissingRequired (paramColumns : List (Option String))
    (displayCols : List String) (row : String → Value) : List String :=
  (paramColumns.zip displayCols).filterMap (fun rd =>
    let value :=
      match rd.1 with
      | some col => row col
      | none => Value.pynone
    if isBlank value then some rd.2 else none)

/-- The loan-number cell recorded alongside a detail record:
`tape_df.at[row_index, loan_number_column] if loan_number_column else None`. -/
def loanValue (loanCol : Option String) (row : String → Value) : Option Value :=
  match truthyCol loanCol with
  | some c => some (row c)
  | none => none

/-- The outcome of one iteration of the rule loop. -/
inductive RuleOutcome where
  | skip : SkipRecord → RuleOutcome
  | missingReq : Bool → Nat → List MissingRecord → RuleOutcome
  | exec : Bool → Nat → List IssueRecord → RuleOutcome
deriving DecidableEq

/-- The missing-required-fields special branch: evaluate the predicate per
row (uncaught exceptions propagate), keep the rows whose mask is true, emit
one record per (row, blank display name) pair and count them.  (The source's
`mask.fillna(False)` is a no-op on booleans, and its `continue` on a zero
count skips only the emission of an empty record list.) -/
def execMissingRequired (r : Rule) (nmap cmap : ColumnMap)
    (loanCol : Option String) (tape : Tape) : Except Exc RuleOutcome :=
  let pcols := fixedParamColumns r nmap cmap
  let disp := displayColumns r nmap cmap
  match collectExcept (applyMissingRequired r.func pcols) tape.rows with
  | .error e => .error e
  | .ok mask =>
    let keptRows := ((tape.rows.zip mask).filter (fun rm => rm.2)).map (fun rm => rm.1)
    let missingPerRow := keptRows.map (collectMissingRequired pcols disp)
    let count := (missingPerRow.map List.length).sum
    let recs := keptRows.flatMap (fun row =>
      (collectMissingRequired pcols disp row).map (fun fieldName =>
        { missing_required_field := fieldName,
          loan_number := loanValue loanCol row }))
    .ok (RuleOutcome.missingReq (r.name ∈ WARNING_RULES) count recs)

/-- The ordinary execution branch: evaluate `apply_rule` per row, count the
true outcomes, and emit one detail record per true row in row order.  (When
the count is zero the record list is empty, matching the source's
`continue`.) -/
def execNormal (r : Rule) (varargs : Bool) (columns : List String)
    (paramColumns : List (Option String)) (isWarning : Bool)
    (loanCol : Option String) (tape : Tape) : Except Exc RuleOutcome :=
  match collectExcept (applyRule r.func varargs columns paramColumns) tape.rows with
  | .error e => .error e
  | .ok mask =>
    let issueCount := mask.count true
    let recs := (tape.rows.enum.zip mask).filterMap (fun em =>
      if em.2 then
        some { rule := r.name,
               row_index := em.1.1,
               columns := joinComma columns,
               loan_number := loanValue loanCol em.1.2 }
      else none)
    .ok (RuleOutcome.exec isWarning issueCount recs)

/-- One iteration of the `run_validations` rule loop: plan the rule
(varargs mapping lookup / parameter resolution), skip it, run the
missing-required-fields special branch, or run it normally. -/
def ruleOutcome (nmap cmap : ColumnMap) (loanCol : Option String)
    (tape : Tape) (r : Rule) : Except Exc RuleOutcome :=
  let isWarning := r.name ∈ WARNING_RULES
  if r.varargs then
    let columnNames := (VARARGS_RULE_COLUMNS.lookup r.name).getD []
    if columnNames.isEmpty then
      .ok (RuleOutcome.skip
        { rule := r.name, reason := "missing_varargs_mapping",
          missing_columns := r.varargsName })
    else
      let missing := varargsMissing columnNames nmap cmap
      if ¬ missing.isEmpty then
        .ok (RuleOutcome.skip
          { rule := r.name, reason := "missing_columns",
            missing_columns := joinComma missing })
      else
        execNormal r true (varargsColumns columnNames nmap cmap) [] isWarning loanCol tape
  else
    let missing := fixedMissing r nmap cmap
    if ¬ missing.isEmpty ∧ r.name ∉ ALLOW_MISSING_PARAM_RULES then
      .ok (RuleOutcome.skip
        { rule := r.name, reason := "missing_columns",
          missing_columns := joinComma missing })
    else if r.name = "validate_missing_required_fields" then
      execMissingRequired r nmap cmap loanCol tape
    else
      execNormal r false (fixedColumns r nmap cmap) (fixedParamColumns r nmap cmap)
        isWarning loanCol tape

/-! ## Aggregation and the engine entry point (`run_validations`) -/

/-- Stable insertion of a summary entry into a rule-name-sorted list. -/
def insertSummary (e : SummaryEntry) : List SummaryEntry → List SummaryEntry
  | [] => [e]
  | x :: xs => if x.rule ≤ e.rule then x :: insertSummary e xs else e :: x :: xs

/-- `df.sort_values("rule")` for a summary table (pandas' sort is stable). -/
def sortSummaries (l : List SummaryEntry) : List SummaryEntry :=
  l.foldr insertSummary []

/-- Stable insertion of a skip record into a rule-name-sorted list. -/
def insertSkip (e : SkipRecord) : List SkipRecord → List SkipRecord
  | [] => [e]
  | x :: xs => if x.rule ≤ e.rule then x :: insertSkip e xs else e :: x :: xs

/-- `df.sort_values("rule")` for the skipped-rules table. -/
def sortSkips (l : List SkipRecord) : List SkipRecord :=
  l.foldr insertSkip []

/-- Assemble the result dictionary from the per-rule outcomes (paired with
their rule names), concatenating detail records in loop order and sorting
the summary and skip tables by rule name. -/
def aggregate (tape : Tape) (outs : List (String × RuleOutcome)) : RunResult :=
  { row_count := tape.rows.length,
    columns := tape.columns,
    issues := outs.flatMap (fun no =>
      match no.2 with
      | .exec false _ recs => recs
      | _ => []),
    warnings := outs.flatMap (fun no =>
      match no.2 with
      | .exec true _ recs => recs
      | _ => []),
    missing_required_fields := outs.flatMap (fun no =>
      match no.2 with
      | .missingReq _ _ recs => recs
      | _ => []),
    rule_summary := sortSummaries (outs.filterMap (fun no =>
      match no.2 with
      | .exec false c _ => some { rule := no.1, issue_count := c }
      | .missingReq false c _ => some { rule := no.1, issue_count := c }
      | _ => none)),
    warning_summary := sortSummaries (outs.filterMap (fun no =>
      match no.2 with
      | .exec true c _ => some { rule := no.1, issue_count := c }
      | .missingReq true c _ => some { rule := no.1, issue_count := c }
      | _ => none)),
    skipped_rules := sortSkips (outs.filterMap (fun no =>
      match no.2 with
      | .skip sk => some sk
      | _ => none)) }

/-- `engine.run_validations`: build the lookup maps, resolve the loan-number
column, run every rule of the registry in order (an uncaught exception
propagates out of the loop), and aggregate. -/
def run_validations (registry : List Rule) (tape : Tape) : Except Exc RunResult :=
  let maps := buildColumnMaps tape.columns
  let loanCol := resolveColumnName "loan_number" maps.1 maps.2
  match collectExcept
      (fun r =>
        match ruleOutcome maps.1 maps.2 loanCol tape r with
        | .error e => .error e
        | .ok o => .ok (r.name, o))
      registry with
  | .error e => .error e
  | .ok outs => .ok (aggregate tape outs)

/-! ## Statement-side abbreviations

These name the argument values with which `ruleOutcome` invokes the row
evaluator, so that theorems can speak about "the values the engine passes". -/

/-- The column list a runnable rule is executed with. -/
def planColumns (r : Rule) (nmap cmap : ColumnMap) : List String :=
  if r.varargs then
    varargsColumns ((VARARGS_RULE_COLUMNS.lookup r.name).getD []) nmap cmap
  else fixedColumns r nmap cmap

/-- The per-parameter column list a runnable rule is executed with. -/
def planParamColumns (r : Rule) (nmap cmap : ColumnMap) : List (Option String) :=
  if r.varargs then [] else fixedParamColumns r nmap cmap

/-! ## General lemmas about the execution loop -/

theorem collectExcept_ok_map {α β : Type} (f : α → Except Exc β) (g : α → β)
    (l : List α) (h : ∀ x ∈ l, f x = .ok (g x)) :
    collectExcept f l = .ok (l.map g) := by
  induction l with
  | nil => rfl
  | cons x rest ih =>
    have hx := h x (by simp)
    have hrest := ih (fun y hy => h y (by simp [hy]))
    simp [collectExcept, hx, hrest]

theorem collectExcept_exists_ok {α β : Type} (f : α → Except Exc β)
    (l : List α) (h : ∀ x ∈ l, ∃ y, f x = .ok y) :
    ∃ ys, collectExcept f l = .ok ys := by
  induction l with
  | nil => exact ⟨[], rfl⟩
  | cons x rest ih =>
    obtain ⟨y, hy⟩ := h x (by simp)
    obtain ⟨ys, hys⟩ := ih (fun z hz => h z (by simp [hz]))
    exact ⟨y :: ys, by simp [collectExcept, hy, hys]⟩

theorem collectExcept_forall₂ {α β : Type} (f : α → Except Exc β) :
    ∀ (l : List α) (ys : List β), collectExcept f l = .ok ys →
      List.Forall₂ (fun x y => f x = .ok y) l ys := by
  intro l
  induction l with
  | nil =>
    intro ys h
    simp only [collectExcept] at h
    cases h
    exact List.Forall₂.nil
  | cons x rest ih =>
    intro ys h
    simp only [collectExcept] at h
    cases hx : f x with
    | error e => rw [hx] at h; cases h
    | ok y =>
      rw [hx] at h
      cases hrest : collectExcept f rest with
      | error e => rw [hrest] at h; cases h
      | ok zs =>
        rw [hrest] at h
        cases h
        exact List.Forall₂.cons hx (ih zs hrest)

/-! ## General lemmas about the result sorters -/

theorem insertSummary_perm (e : SummaryEntry) (l : List SummaryEntry) :
    List.Perm (insertSummary e l) (e :: l) := by
  induction l with
  | nil => exact List.Perm.refl _
  | cons x xs ih =>
    simp only [insertSummary]
    by_cases h : x.rule ≤ e.rule
    · simp only [h, if_pos]
      exact ((ih.cons x).trans (List.Perm.swap e x xs))
    · simp only [h, if_neg, not_false_iff]
      exact List.Perm.refl _

theorem sortSummaries_perm (l : List SummaryEntry) :
    List.Perm (sortSummaries l) l := by
  induction l with
  | nil => exact List.Perm.refl _
  | cons x xs ih =>
    exact (insertSummary_perm x (sortSummaries xs)).trans (ih.cons x)

theorem insertSkip_perm (e : SkipRecord) (l : List SkipRecord) :
    List.Perm (insertSkip e l) (e :: l) := by
  induction l with
  | nil => exact List.Perm.refl _
  | cons x xs ih =>
    simp only [insertSkip]
    by_cases h : x.rule ≤ e.rule
    · simp only [h, if_pos]
      exact ((ih.cons x).trans (List.Perm.swap e x xs))
    · simp only [h, if_neg, not_false_iff]
      exact List.Perm.refl _

theorem sortSkips_perm (l : List SkipRecord) :
    List.Perm (sortSkips l) l := by
  induction l with
  | nil => exact List.Perm.refl _
  | cons x xs ih =>
    exact (insertSkip_perm x (sortSkips xs)).trans (ih.cons x)

/-! ## Small list lemmas -/

theorem filter_flatMap_of_nil {α β : Type} (l : List α) (p : α → Bool)
    (f : α → List β) (h : ∀ x ∈ l, p x = false → f x = []) :
    (l.filter p).flatMap f = l.flatMap f := by
  induction l with
  | nil => rfl
  | cons x rest ih =>
    have hrest := ih (fun y hy => h y (by simp [hy]))
    cases hx : p x with
    | true => simp [List.filter_cons, hx, hrest]
    | false => simp [List.filter_cons, hx, hrest, h x (by simp) hx]

theorem filter_map_sum_of_zero {α : Type} (l : List α) (p : α → Bool)
    (f : α → Nat) (h : ∀ x ∈ l, p x = false → f x = 0) :
    ((l.filter p).map f).sum = (l.map f).sum := by
  induction l with
  | nil => rfl
  | cons x rest ih =>
    have hrest := ih (fun y hy => h y (by simp [hy]))
    cases hx : p x with
    | true => simp [List.filter_cons, hx, hrest]
    | false => simp [List.filter_cons, hx, hrest, h x (by simp) hx]

theorem zip_filterMap_of_false {α β : Type} (f : α → β) :
    ∀ (l : List α) (m : List Bool), (∀ b ∈ m, b = false) →
      (l.zip m).filterMap (fun em => if em.2 then some (f em.1) else none) = [] := by
  intro l
  induction l with
  | nil => intro m _; rfl
  | cons x rest ih =>
    intro m hm
    cases m with
    | nil => rfl
    | cons b bs =>
      have hb : b = false := hm b (by simp)
      subst hb
      simpa using ih bs (fun c hc => hm c (by simp [hc]))

theorem count_true_map_false {α : Type} (l : List α) :
    (l.map (fun _ => false)).count true = 0 := by
  induction l with
  | nil => rfl
  | cons x rest ih => simpa [List.count_cons] using ih

theorem fixedMissing_eq_filter (r : Rule) (nmap cmap : ColumnMap) :
    fixedMissing r nmap cmap =
      r.params.filter (fun p => (resolveParamName p nmap cmap).isNone) := by
  simp only [fixedMissing, fixedResolutions, List.filterMap_map]
  induction r.params with
  | nil => rfl
  | cons p ps ih =>
    simp only [List.filterMap_cons, List.filter_cons, Function.comp]
    cases h : resolveParamName p nmap cmap with
    | none => simpa [h] using ih
    | some c => simpa [h] using ih

/-! ## Claims C2, C7, C10 -/

/-- C2: for every fixed-parameter rule and every tape, provided no row makes
the predicate raise the run-abort signal, the per-row evaluation of
`apply_rule` succeeds and returns exactly one boolean per tape row in row
order; a row on which the predicate raises an ordinary exception gets
outcome `true`, and every other row gets the predicate's computed value. -/
theorem c2_fail_closed_per_row_outcomes (r : Rule) (columns : List String)
    (paramColumns : List (Option String)) (tape : Tape)
    (_hfix : r.varargs = false)
    (habort : ∀ row ∈ tape.rows,
      r.func (buildValues r.varargs columns paramColumns row) ≠ PredResult.exn Exc.abort) :
    collectExcept (applyRule r.func r.varargs columns paramColumns) tape.rows =
      Except.ok (tape.rows.map (fun row =>
        match r.func (buildValues r.varargs columns paramColumns row) with
        | .ok b => b
        | .exn _ => true)) := by
  apply collectExcept_ok_map
  intro row hrow
  unfold applyRule
  cases h : r.func (buildValues r.varargs columns paramColumns row) with
  | ok b => rfl
  | exn e =>
    cases e with
    | err => rfl
    | abort => exact absurd h (habort row hrow)

/-- A rule whose predicate raises an ordinary exception exactly when the
single argument is the number 5. -/
def c2Rule : Rule :=
  { name := "validate_demo", varargs := false, varargsName := "",
    params := ["f1"],
    func := fun vs => if vs = [Value.num 5] then PredResult.exn Exc.err else PredResult.ok false }

/-- A three-row tape for the C2 witness; the middle row holds the value 5. -/
def c2Tape : Tape :=
  { columns := ["f1"],
    rows := [fun _ => Value.num 1, fun _ => Value.num 5, fun _ => Value.num 2] }

/-- Witness for C2 at a concrete rule and tape: the outcome sequence is
`[false, true, false]` — the raising row fail-closed to `true`. -/
theorem c2_fail_closed_per_row_outcomes_witness :
    collectExcept (applyRule c2Rule.func c2Rule.varargs ["f1"] [some "f1"]) c2Tape.rows =
      Except.ok (c2Tape.rows.map (fun row =>
        match c2Rule.func (buildValues c2Rule.varargs ["f1"] [some "f1"] row) with
        | .ok b => b
        | .exn _ => true)) :=
  c2_fail_closed_per_row_outcomes c2Rule ["f1"] [some "f1"] c2Tape (by decide) (by decide)

/-- C7: a parameter `original_loan_amount` resolves to a tape column
literally named "Original Loan Amount"; a parameter `oltv` is not in the
alias map and does not resolve against a tape whose column is
"Original LTV" — it matches neither by normalized key nor by canonical
key. -/
theorem c7_exact_matching_no_fuzzy_alias :
    resolveParamName "original_loan_amount"
        (buildColumnMaps ["Original Loan Amount"]).1
        (buildColumnMaps ["Original Loan Amount"]).2 = some "Original Loan Amount"
    ∧ resolveParamName "oltv"
        (buildColumnMaps ["Original LTV"]).1
        (buildColumnMaps ["Original LTV"]).2 = none
    ∧ PARAM_ALIASES.lookup "oltv" = none
    ∧ normalizeName "Original LTV" ≠ normalizeName "oltv"
    ∧ canonicalKey "Original LTV" ≠ canonicalKey "oltv" := by
  refine ⟨by decide, by decide, by decide, by decide, by decide⟩

/-- C10: `_is_blank` is total and returns `true` exactly for `None`, `NaN`,
and strings that are empty after trimming; in particular for a container
value — on which the `pd.isna` check itself raises — it returns `false`
rather than propagating the exception. -/
theorem c10_is_blank_total_characterization :
    (∀ v : Value, isBlank v = true ↔
      (v = Value.pynone ∨ v = Value.nan ∨ ∃ s, v = Value.str s ∧ stripStr s = ""))
    ∧ pdIsna Value.arr = Except.error () ∧ isBlank Value.arr = false := by
  refine ⟨fun v => ?_, rfl, rfl⟩
  cases v with
  | pynone => simp [isBlank]
  | nan => simp [isBlank, pdIsna]
  | num n => simp [isBlank, pdIsna]
  | str s => simp [isBlank, pdIsna, beq_iff_eq]
  | boolean b => simp [isBlank, pdIsna]
  | arr => simp [isBlank, pdIsna]

/-! ## Claim C4 -/

/-- A rule declaring the aliased parameter name `pbw`
(alias-substituted display form `primary_borrower_wage_income`). -/
def c4Rule : Rule :=
  { name := "validate_demo_skip", varargs := false, varargsName := "",
    params := ["pbw"], func := fun _ => PredResult.ok false }

/-- An empty tape, so `pbw` is unresolved and `c4Rule` is skipped. -/
def c4Tape : Tape := { columns := [], rows := [] }

/-- C4 counterexample: the skip record lists the raw declared parameter name
`"pbw"`, not the alias-substituted display name
`"primary_borrower_wage_income"` that the claim requires. -/
theorem c4_counterexample_raw_name_recorded :
    run_validations [c4Rule] c4Tape = Except.ok
      { row_count := 0, columns := [], issues := [], warnings := [],
        missing_required_fields := [], rule_summary := [], warning_summary := [],
        skipped_rules := [{ rule := "validate_demo_skip",
                            reason := "missing_columns", missing_columns := "pbw" }] }
    ∧ joinComma (c4Rule.params.map displayName) = "primary_borrower_wage_income"
    ∧ ("pbw" : String) ≠ "primary_borrower_wage_income" := by
  refine ⟨rfl, by decide, by decide⟩

/-- C4 amended: for every fixed-parameter rule skipped with reason
`missing_columns`, the skip record's unresolved-names field lists exactly the
unresolved parameters' raw declared names (no alias substitution),
comma-joined, in declared parameter order; it has no duplicates whenever the
declared parameter names are distinct (always true of a Python signature). -/
theorem c4_amended_skip_lists_declared_names (r : Rule) (nmap cmap : ColumnMap)
    (loanCol : Option String) (tape : Tape)
    (hfix : r.varargs = false)
    (hmiss : fixedMissing r nmap cmap ≠ [])
    (hallow : r.name ∉ ALLOW_MISSING_PARAM_RULES) :
    ruleOutcome nmap cmap loanCol tape r =
      Except.ok (RuleOutcome.skip
        { rule := r.name, reason := "missing_columns",
          missing_columns :=
            joinComma (r.params.filter (fun p => (resolveParamName p nmap cmap).isNone)) })
    ∧ (r.params.Nodup →
        (r.params.filter (fun p => (resolveParamName p nmap cmap).isNone)).Nodup) := by
  rw [fixedMissing_eq_filter] at hmiss
  constructor
  · have hcond :
        ¬ (r.params.filter (fun p => (resolveParamName p nmap cmap).isNone)).isEmpty = true
          ∧ r.name ∉ ALLOW_MISSING_PARAM_RULES := by
      refine ⟨?_, hallow⟩
      simpa [List.isEmpty_iff] using hmiss
    simp only [ruleOutcome, hfix, Bool.false_eq_true, if_false, fixedMissing_eq_filter]
    rw [if_pos hcond]
  · intro h
    exact h.filter _

/-! ## Claim C3 -/

/-- Ordinary-exception containment of `execNormal`: the only exception that
can escape the per-row `apply_rule` loop is the run-abort signal. -/
theorem execNormal_ok (r : Rule) (varargs : Bool) (columns : List String)
    (paramColumns : List (Option String)) (isWarning : Bool)
    (loanCol : Option String) (tape : Tape)
    (habort : ∀ vs, r.func vs ≠ PredResult.exn Exc.abort) :
    ∃ o, execNormal r varargs columns paramColumns isWarning loanCol tape = .ok o := by
  obtain ⟨mask, hm⟩ := collectExcept_exists_ok
      (applyRule r.func varargs columns paramColumns) tape.rows (by
        intro row _
        unfold applyRule
        cases hf : r.func (buildValues varargs columns paramColumns row) with
        | ok b => exact ⟨b, rfl⟩
        | exn e =>
          cases e with
          | err => exact ⟨true, rfl⟩
          | abort => exact absurd hf (habort _))
  unfold execNormal
  simp only [hm]
  exact ⟨_, rfl⟩

/-- `execMissingRequired` completes whenever the predicate never raises. -/
theorem execMissingRequired_ok (r : Rule) (nmap cmap : ColumnMap)
    (loanCol : Option String) (tape : Tape)
    (hexn : ∀ vs e, r.func vs ≠ PredResult.exn e) :
    ∃ o, execMissingRequired r nmap cmap loanCol tape = .ok o := by
  obtain ⟨mask, hm⟩ := collectExcept_exists_ok
      (applyMissingRequired r.func (fixedParamColumns r nmap cmap)) tape.rows (by
        intro row _
        unfold applyMissingRequired
        cases hf : r.func (buildValues false [] (fixedParamColumns r nmap cmap) row) with
        | ok b => exact ⟨b, rfl⟩
        | exn e => exact absurd hf (hexn _ e))
  unfold execMissingRequired
  simp only [hm]
  exact ⟨_, rfl⟩

/-- One rule-loop iteration completes unless the predicate signals a
run-abort, or the rule takes the missing-required-fields path and its
predicate raises at all. -/
theorem ruleOutcome_ok (nmap cmap : ColumnMap) (loanCol : Option String)
    (tape : Tape) (r : Rule)
    (habort : ∀ vs, r.func vs ≠ PredResult.exn Exc.abort)
    (hmrf : r.name = "validate_missing_required_fields" → r.varargs = false →
      ∀ vs, r.func vs ≠ PredResult.exn Exc.err) :
    ∃ o, ruleOutcome nmap cmap loanCol tape r = .ok o := by
  unfold ruleOutcome
  by_cases hv : r.varargs = true
  · simp only [hv, if_true]
    by_cases he : ((VARARGS_RULE_COLUMNS.lookup r.name).getD []).isEmpty = true
    · simp only [he, if_true]
      exact ⟨_, rfl⟩
    · simp only [he, if_false]
      by_cases hmv :
          ¬ (varargsMissing ((VARARGS_RULE_COLUMNS.lookup r.name).getD []) nmap cmap).isEmpty = true
      · simp only [if_pos hmv]
        exact ⟨_, rfl⟩
      · simp only [if_neg hmv]
        exact execNormal_ok r true _ [] _ loanCol tape habort
  · have hv' : r.varargs = false := by
      cases h : r.varargs
      · rfl
      · exact absurd h hv
    simp only [hv', Bool.false_eq_true, if_false]
    by_cases hc :
        ¬ (fixedMissing r nmap cmap).isEmpty = true ∧ r.name ∉ ALLOW_MISSING_PARAM_RULES
    · simp only [if_pos hc]
      exact ⟨_, rfl⟩
    · simp only [if_neg hc]
      by_cases hn : r.name = "validate_missing_required_fields"
      · simp only [hn, if_true]
        refine execMissingRequired_ok r nmap cmap loanCol tape ?_
        intro vs e
        cases e with
        | err => exact hmrf hn hv' vs
        | abort => exact habort vs
      · simp only [hn, if_false]
        exact execNormal_ok r false _ _ _ loanCol tape habort

/-- A catalogue entry registered under the missing-required-fields name whose
predicate raises an ordinary exception. -/
def c3BadRule : Rule :=
  { name := "validate_missing_required_fields", varargs := false, varargsName := "",
    params := ["f1"], func := fun _ => PredResult.exn Exc.err }

/-- A one-row tape whose single column resolves `c3BadRule`'s parameter. -/
def c3Tape : Tape := { columns := ["f1"], rows := [fun _ => Value.pynone] }

/-- C3 counterexample: with a missing-required-fields predicate that raises
an ordinary (non-abort) exception, the exception escapes the engine's entry
point — `run_validations` does not return a `Result`, contradicting the
claim that no predicate exception for any rule escapes. -/
theorem c3_counterexample_mrf_exception_escapes :
    run_validations [c3BadRule] c3Tape = Except.error Exc.err := rfl

/-- C3 amended: the run always completes and returns a Result provided no
predicate signals a run-abort and every rule taking the
missing-required-fields path (registered under that name, without varargs)
has a predicate that never raises; ordinary predicate exceptions of all
other rules are contained.  (The unamended claim fails because
`apply_missing_required` has no exception handler.) -/
theorem c3_amended_run_returns_result (registry : List Rule) (tape : Tape)
    (habort : ∀ r ∈ registry, ∀ vs, r.func vs ≠ PredResult.exn Exc.abort)
    (hmrf : ∀ r ∈ registry, r.name = "validate_missing_required_fields" →
      r.varargs = false → ∀ vs, r.func vs ≠ PredResult.exn Exc.err) :
    ∃ res, run_validations registry tape = Except.ok res := by
  unfold run_validations
  obtain ⟨outs, houts⟩ := collectExcept_exists_ok
    (fun r =>
      match ruleOutcome (buildColumnMaps tape.columns).1 (buildColumnMaps tape.columns).2
          (resolveColumnName "loan_number" (buildColumnMaps tape.columns).1
            (buildColumnMaps tape.columns).2) tape r with
      | .error e => .error e
      | .ok o => .ok (r.name, o))
    registry (by
      intro r hr
      obtain ⟨o, ho⟩ := ruleOutcome_ok (buildColumnMaps tape.columns).1
        (buildColumnMaps tape.columns).2
        (resolveColumnName "loan_number" (buildColumnMaps tape.columns).1
          (buildColumnMaps tape.columns).2) tape r
        (habort r hr) (hmrf r hr)
      exact ⟨(r.name, o), by simp only [ho]⟩)
  simp only [houts]
  exact ⟨_, rfl⟩

/-- A harmless rule for the C3 amended witness. -/
def c3GoodRule : Rule :=
  { name := "validate_demo_good", varargs := false, varargsName := "",
    params := ["f1"], func := fun _ => PredResult.ok false }

/-- Witness for the amended C3: a concrete run returns a Result. -/
theorem c3_amended_run_returns_result_witness :
    ∃ res, run_validations [c3GoodRule] c3Tape = Except.ok res :=
  c3_amended_run_returns_result [c3GoodRule] c3Tape
    (by
      intro r hr vs
      have : r = c3GoodRule := by simpa using hr
      subst this
      intro h
      exact PredResult.noConfusion h)
    (by
      intro r hr hn
      have : r = c3GoodRule := by simpa using hr
      subst this
      intro _ vs h
      exact PredResult.noConfusion h)

/-- Witness for the amended C4 at a concrete skipped rule. -/
theorem c4_amended_skip_lists_declared_names_witness :
    ruleOutcome [] [] none c4Tape c4Rule =
      Except.ok (RuleOutcome.skip
        { rule := "validate_demo_skip", reason := "missing_columns",
          missing_columns :=
            joinComma (c4Rule.params.filter (fun p => (resolveParamName p [] []).isNone)) })
    ∧ (c4Rule.params.Nodup →
        (c4Rule.params.filter (fun p => (resolveParamName p [] []).isNone)).Nodup) :=
  c4_amended_skip_lists_declared_names c4Rule [] [] none c4Tape
    (by decide) (by decide) (by decide)

/-! ## Claim C8 -/

/-- If every row's predicate invocation computes `False`, the execution
branch yields a zero count and an empty detail-record list. -/
theorem execNormal_all_false (r : Rule) (varargs : Bool) (columns : List String)
    (paramColumns : List (Option String)) (isWarning : Bool)
    (loanCol : Option String) (tape : Tape)
    (hfalse : ∀ row ∈ tape.rows,
      r.func (buildValues varargs columns paramColumns row) = PredResult.ok false) :
    execNormal r varargs columns paramColumns isWarning loanCol tape =
      Except.ok (RuleOutcome.exec isWarning 0 []) := by
  have hmask : collectExcept (applyRule r.func varargs columns paramColumns) tape.rows =
      Except.ok (tape.rows.map (fun _ => false)) := by
    apply collectExcept_ok_map
    intro row hrow
    unfold applyRule
    rw [hfalse row hrow]
  unfold execNormal
  simp only [hmask]
  rw [count_true_map_false]
  refine congrArg (fun recs => Except.ok (RuleOutcome.exec isWarning 0 recs)) ?_
  exact zip_filterMap_of_false
    (fun p => ({ rule := r.name, row_index := p.1, columns := joinComma columns,
                 loan_number := loanValue loanCol p.2 } : IssueRecord))
    tape.rows.enum (tape.rows.map (fun _ => false)) (by simp)

/-- The branch conditions under which the planner makes a rule runnable. -/
def runnablePlan (r : Rule) (nmap cmap : ColumnMap) : Prop :=
  if r.varargs then
    ((VARARGS_RULE_COLUMNS.lookup r.name).getD []) ≠ []
      ∧ varargsMissing ((VARARGS_RULE_COLUMNS.lookup r.name).getD []) nmap cmap = []
  else
    fixedMissing r nmap cmap = [] ∨ r.name ∈ ALLOW_MISSING_PARAM_RULES

instance (r : Rule) (nmap cmap : ColumnMap) : Decidable (runnablePlan r nmap cmap) := by
  unfold runnablePlan
  split <;> infer_instance

/-- A runnable, non-special rule whose rows all compute `False` is executed
with count `0` and no detail records. -/
theorem ruleOutcome_all_false (r : Rule) (nmap cmap : ColumnMap)
    (loanCol : Option String) (tape : Tape)
    (hspecial : r.varargs = false → r.name ≠ "validate_missing_required_fields")
    (hplan : runnablePlan r nmap cmap)
    (hfalse : ∀ row ∈ tape.rows,
      r.func (buildValues r.varargs (planColumns r nmap cmap) (planParamColumns r nmap cmap) row)
        = PredResult.ok false) :
    ruleOutcome nmap cmap loanCol tape r =
      Except.ok (RuleOutcome.exec (decide (r.name ∈ WARNING_RULES)) 0 []) := by
  cases hv : r.varargs with
  | true =>
    rw [runnablePlan, if_pos (by rw [hv])] at hplan
    obtain ⟨hne, hmiss0⟩ := hplan
    have hfalse' : ∀ row ∈ tape.rows,
        r.func (buildValues true
          (varargsColumns ((VARARGS_RULE_COLUMNS.lookup r.name).getD []) nmap cmap) [] row)
          = PredResult.ok false := by
      intro row hrow
      have := hfalse row hrow
      simpa only [hv, planColumns, planParamColumns, eq_self_iff_true, if_true] using this
    simp only [ruleOutcome, hv, if_true]
    rw [if_neg (by simpa [List.isEmpty_iff] using hne)]
    rw [if_neg (by simp [hmiss0])]
    exact execNormal_all_false r true _ [] _ loanCol tape hfalse'
  | false =>
    rw [runnablePlan, if_neg (by rw [hv]; simp)] at hplan
    have hfalse' : ∀ row ∈ tape.rows,
        r.func (buildValues false (fixedColumns r nmap cmap) (fixedParamColumns r nmap cmap) row)
          = PredResult.ok false := by
      intro row hrow
      have := hfalse row hrow
      simpa only [hv, planColumns, planParamColumns, Bool.false_eq_true, if_false] using this
    simp only [ruleOutcome, hv, Bool.false_eq_true, if_false]
    rw [if_neg (by
      rcases hplan with h | h
      · simp [h]
      · simp [h])]
    rw [if_neg (hspecial hv)]
    exact execNormal_all_false r false _ _ _ loanCol tape hfalse'

/-- Running a one-rule registry whose rule-loop iteration yields `o`. -/
theorem run_validations_singleton (r : Rule) (tape : Tape) (o : RuleOutcome)
    (h : ruleOutcome (buildColumnMaps tape.columns).1 (buildColumnMaps tape.columns).2
        (resolveColumnName "loan_number" (buildColumnMaps tape.columns).1
          (buildColumnMaps tape.columns).2) tape r = .ok o) :
    run_validations [r] tape = Except.ok (aggregate tape [(r.name, o)]) := by
  simp only [run_validations, collectExcept, h]

/-- C8: for every runnable rule (other than the missing-required-fields
special case) whose per-row outcomes are all false, the result records the
rule in its per-rule summary — issue or warning side according to its
severity — with count 0, and contributes no detail record to the issue or
warning sequences. -/
theorem c8_zero_count_rule_still_summarized (r : Rule) (tape : Tape)
    (hspecial : r.varargs = false → r.name ≠ "validate_missing_required_fields")
    (hplan : runnablePlan r (buildColumnMaps tape.columns).1 (buildColumnMaps tape.columns).2)
    (hfalse : ∀ row ∈ tape.rows,
      r.func (buildValues r.varargs
        (planColumns r (buildColumnMaps tape.columns).1 (buildColumnMaps tape.columns).2)
        (planParamColumns r (buildColumnMaps tape.columns).1 (buildColumnMaps tape.columns).2)
        row) = PredResult.ok false) :
    run_validations [r] tape = Except.ok
      { row_count := tape.rows.length,
        columns := tape.columns,
        issues := [], warnings := [], missing_required_fields := [],
        rule_summary :=
          if r.name ∈ WARNING_RULES then [] else [{ rule := r.name, issue_count := 0 }],
        warning_summary :=
          if r.name ∈ WARNING_RULES then [{ rule := r.name, issue_count := 0 }] else [],
        skipped_rules := [] } := by
  have hout := ruleOutcome_all_false r (buildColumnMaps tape.columns).1
    (buildColumnMaps tape.columns).2
    (resolveColumnName "loan_number" (buildColumnMaps tape.columns).1
      (buildColumnMaps tape.columns).2) tape hspecial hplan hfalse
  by_cases hw : r.name ∈ WARNING_RULES
  · rw [decide_eq_true hw] at hout
    rw [run_validations_singleton r tape _ hout]
    simp [aggregate, sortSummaries, sortSkips, insertSummary, insertSkip, hw]
  · rw [decide_eq_false hw] at hout
    rw [run_validations_singleton r tape _ hout]
    simp [aggregate, sortSummaries, sortSkips, insertSummary, insertSkip, hw]

/-- A rule that never flags, for the C8 witness. -/
def c8Rule : Rule :=
  { name := "validate_demo_clean", varargs := false, varargsName := "",
    params := ["f1"], func := fun _ => PredResult.ok false }

/-- A one-row tape for the C8 witness. -/
def c8Tape : Tape := { columns := ["f1"], rows := [fun _ => Value.num 1] }

/-- Witness for C8 at a concrete rule and tape. -/
theorem c8_zero_count_rule_still_summarized_witness :
    run_validations [c8Rule] c8Tape = Except.ok
      { row_count := c8Tape.rows.length,
        columns := c8Tape.columns,
        issues := [], warnings := [], missing_required_fields := [],
        rule_summary :=
          if c8Rule.name ∈ WARNING_RULES then []
          else [{ rule := c8Rule.name, issue_count := 0 }],
        warning_summary :=
          if c8Rule.name ∈ WARNING_RULES then [{ rule := c8Rule.name, issue_count := 0 }]
          else [],
        skipped_rules := [] } :=
  c8_zero_count_rule_still_summarized c8Rule c8Tape
    (by intro _; decide) (by decide) (by decide)

/-! ## Claim C5 -/

/-- The actual catalogue predicate `validate_missing_required_fields` from
`rules/asf_validations.py`: true iff any of its (positional) arguments is
`_is_blank`; it never raises. -/
def validate_missing_required_fields (values : List Value) : PredResult :=
  .ok (values.any isBlank)

/-- The missing-required-fields catalogue entry with its declared parameter
list. -/
def missingRequiredRule (params : List String) : Rule :=
  { name := "validate_missing_required_fields", varargs := false, varargsName := "",
    params := params, func := validate_missing_required_fields }

/-- The engine's `param_columns` for the missing-required-fields rule on a
given tape. -/
def mrfPcols (params : List String) (tape : Tape) : List (Option String) :=
  fixedParamColumns (missingRequiredRule params)
    (buildColumnMaps tape.columns).1 (buildColumnMaps tape.columns).2

/-- The engine's `display_columns` for the missing-required-fields rule on a
given tape. -/
def mrfDisp (params : List String) (tape : Tape) : List String :=
  displayColumns (missingRequiredRule params)
    (buildColumnMaps tape.columns).1 (buildColumnMaps tape.columns).2

/-- The resolved loan-number column of a tape. -/
def mrfLoanCol (tape : Tape) : Option String :=
  resolveColumnName "loan_number" (buildColumnMaps tape.columns).1 (buildColumnMaps tape.columns).2

/-- A row's collected blank list is empty exactly when the actual
missing-required predicate computes `False` on the values the engine
passes. -/
theorem collectMissing_nil_iff (pcols : List (Option String)) (disp : List String)
    (hlen : pcols.length = disp.length) (row : String → Value) :
    collectMissingRequired pcols disp row = [] ↔
      (buildValues false [] pcols row).any isBlank = false := by
  have hval : buildValues false [] pcols row = pcols.map (fun c =>
      match c with
      | some col => row col
      | none => Value.pynone) := by
    simp [buildValues]
  rw [hval, List.any_eq_false]
  rw [List.forall_mem_map]
  unfold collectMissingRequired
  rw [List.filterMap_eq_nil_iff]
  constructor
  · intro h p hp
    have hfst : (pcols.zip disp).map Prod.fst = pcols :=
      List.map_fst_zip pcols disp (le_of_eq hlen)
    rw [← hfst] at hp
    obtain ⟨rd, hrd, hrdp⟩ := List.mem_map.mp hp
    have hrdn := h rd hrd
    subst hrdp
    intro hb
    rw [if_pos hb] at hrdn
    cases hrdn
  · intro h rd hrd
    obtain ⟨a, b⟩ := rd
    have h1 : a ∈ pcols := (List.of_mem_zip hrd).1
    have hnb := h a h1
    rw [if_neg (by simpa using hnb)]

/-- Filtering the rows by the zipped mask `rows.map g` keeps exactly the
rows satisfying `g`. -/
theorem zip_map_filter_fst {α : Type} (l : List α) (g : α → Bool) :
    ((l.zip (l.map g)).filter (fun rm => rm.2)).map (fun rm => rm.1) = l.filter g := by
  induction l with
  | nil => rfl
  | cons x xs ih =>
    cases hgx : g x with
    | true => simp [List.filter_cons, hgx, ih]
    | false => simp [List.filter_cons, hgx, ih]

/-- The missing-required-fields branch on the actual predicate: the mask
keeps exactly the rows with a blank field, and since blankless rows
contribute nothing, the records and count range over all rows. -/
theorem execMissingRequired_mrf (params : List String) (nmap cmap : ColumnMap)
    (loanCol : Option String) (tape : Tape) :
    execMissingRequired (missingRequiredRule params) nmap cmap loanCol tape =
      Except.ok (RuleOutcome.missingReq false
        ((tape.rows.map (fun row =>
          (collectMissingRequired (fixedParamColumns (missingRequiredRule params) nmap cmap)
            (displayColumns (missingRequiredRule params) nmap cmap) row).length)).sum)
        (tape.rows.flatMap (fun row =>
          (collectMissingRequired (fixedParamColumns (missingRequiredRule params) nmap cmap)
            (displayColumns (missingRequiredRule params) nmap cmap) row).map (fun f =>
              { missing_required_field := f, loan_number := loanValue loanCol row })))) := by
  set pcols := fixedParamColumns (missingRequiredRule params) nmap cmap with hpcols
  set disp := displayColumns (missingRequiredRule params) nmap cmap with hdisp
  have hlen : pcols.length = disp.length := by
    rw [hpcols, hdisp]
    simp [fixedParamColumns, displayColumns]
  have hmask : collectExcept (applyMissingRequired
      (missingRequiredRule params).func pcols) tape.rows =
      Except.ok (tape.rows.map (fun row => (buildValues false [] pcols row).any isBlank)) :=
    collectExcept_ok_map _ _ _ (fun row _ => rfl)
  have hnil : ∀ row ∈ tape.rows,
      (fun row => (buildValues false [] pcols row).any isBlank) row = false →
        collectMissingRequired pcols disp row = [] := by
    intro row _ h
    exact (collectMissing_nil_iff pcols disp hlen row).mpr h
  unfold execMissingRequired
  simp only [hmask]
  rw [zip_map_filter_fst tape.rows (fun row => (buildValues false [] pcols row).any isBlank)]
  have hw : decide ((missingRequiredRule params).name ∈ WARNING_RULES) = false := by
    show decide (("validate_missing_required_fields" : String) ∈ WARNING_RULES) = false
    decide
  rw [hw]
  rw [List.map_map]
  rw [filter_map_sum_of_zero _ _ _ (by
    intro row hrow h
    simp [Function.comp, hnil row hrow h])]
  rw [filter_flatMap_of_nil _ _ _ (by
    intro row hrow h
    rw [hnil row hrow h]
    rfl)]
  rfl

/-- A rule registered under the missing-required-fields name (without
varargs) is never skipped: its loop iteration always takes the special
branch. -/
theorem ruleOutcome_special (r : Rule) (nmap cmap : ColumnMap)
    (loanCol : Option String) (tape : Tape)
    (hv : r.varargs = false) (hn : r.name = "validate_missing_required_fields") :
    ruleOutcome nmap cmap loanCol tape r =
      execMissingRequired r nmap cmap loanCol tape := by
  have hallow : r.name ∈ ALLOW_MISSING_PARAM_RULES := by rw [hn]; decide
  simp only [ruleOutcome, hv, Bool.false_eq_true, if_false]
  rw [if_neg (fun h => h.2 hallow)]
  rw [if_pos hn]

/-- The missing-required-fields rule is never skipped. -/
theorem ruleOutcome_mrf (params : List String) (nmap cmap : ColumnMap)
    (loanCol : Option String) (tape : Tape) :
    ruleOutcome nmap cmap loanCol tape (missingRequiredRule params) =
      execMissingRequired (missingRequiredRule params) nmap cmap loanCol tape :=
  ruleOutcome_special (missingRequiredRule params) nmap cmap loanCol tape rfl rfl

/-- C5: for every tape (and every declared parameter list), the
missing-required-fields rule always runs — never skipped, with unresolved
parameters treated as blank on every row — emitting one record per
(row, blank display field) pair, and its summary issue count is the total
number of such pairs. -/
theorem c5_missing_required_pair_explosion (params : List String) (tape : Tape) :
    run_validations [missingRequiredRule params] tape = Except.ok
      { row_count := tape.rows.length,
        columns := tape.columns,
        issues := [], warnings := [],
        missing_required_fields := tape.rows.flatMap (fun row =>
          (collectMissingRequired (mrfPcols params tape) (mrfDisp params tape) row).map
            (fun f => { missing_required_field := f,
                        loan_number := loanValue (mrfLoanCol tape) row })),
        rule_summary :=
          [{ rule := "validate_missing_required_fields",
             issue_count := (tape.rows.map (fun row =>
               (collectMissingRequired (mrfPcols params tape) (mrfDisp params tape) row).length)).sum }],
        warning_summary := [],
        skipped_rules := [] }
    ∧ (∀ row : String → Value,
        ∀ pd ∈ (mrfPcols params tape).zip (mrfDisp params tape), pd.1 = none →
          pd.2 ∈ collectMissingRequired (mrfPcols params tape) (mrfDisp params tape) row) := by
  constructor
  · have hout := (ruleOutcome_mrf params (buildColumnMaps tape.columns).1
      (buildColumnMaps tape.columns).2 (mrfLoanCol tape) tape).trans
      (execMissingRequired_mrf params (buildColumnMaps tape.columns).1
        (buildColumnMaps tape.columns).2 (mrfLoanCol tape) tape)
    rw [run_validations_singleton (missingRequiredRule params) tape _ hout]
    simp [aggregate, sortSummaries, insertSummary, sortSkips, mrfPcols, mrfDisp,
      missingRequiredRule]
  · intro row pd hpd hnone
    unfold collectMissingRequired
    refine List.mem_filterMap.mpr ⟨pd, hpd, ?_⟩
    rw [hnone]
    rfl

/-- Two-row tape for the C5 witness: the first row has a blank city. -/
def c5Tape : Tape :=
  { columns := ["Loan Number", "City"],
    rows := [fun c => if c = "Loan Number" then Value.num 7 else Value.str "",
             fun c => if c = "Loan Number" then Value.num 8 else Value.str "x"] }

/-- Witness for C5 at a concrete parameter list and tape. -/
theorem c5_missing_required_pair_explosion_witness :
    run_validations [missingRequiredRule ["loan_number", "city"]] c5Tape = Except.ok
      { row_count := c5Tape.rows.length,
        columns := c5Tape.columns,
        issues := [], warnings := [],
        missing_required_fields := c5Tape.rows.flatMap (fun row =>
          (collectMissingRequired (mrfPcols ["loan_number", "city"] c5Tape)
              (mrfDisp ["loan_number", "city"] c5Tape) row).map
            (fun f => { missing_required_field := f,
                        loan_number := loanValue (mrfLoanCol c5Tape) row })),
        rule_summary :=
          [{ rule := "validate_missing_required_fields",
             issue_count := (c5Tape.rows.map (fun row =>
               (collectMissingRequired (mrfPcols ["loan_number", "city"] c5Tape)
                 (mrfDisp ["loan_number", "city"] c5Tape) row).length)).sum }],
        warning_summary := [],
        skipped_rules := [] }
    ∧ (∀ row : String → Value,
        ∀ pd ∈ (mrfPcols ["loan_number", "city"] c5Tape).zip
            (mrfDisp ["loan_number", "city"] c5Tape), pd.1 = none →
          pd.2 ∈ collectMissingRequired (mrfPcols ["loan_number", "city"] c5Tape)
            (mrfDisp ["loan_number", "city"] c5Tape) row) :=
  c5_missing_required_pair_explosion ["loan_number", "city"] c5Tape

/-! ## Claim C6 -/

/-- One key-derivation map built over the columns (projection of
`_build_column_maps` to a single key function). -/
def buildMapBy (f : String → String) (cols : List String) : ColumnMap :=
  cols.foldl (fun m c => mapAdd m (f c) c) []

/-- The two-map fold of `_build_column_maps` is the pair of single-key
folds. -/
theorem buildColumnMaps_eq (cols : List String) :
    buildColumnMaps cols = (buildMapBy normalizeName cols, buildMapBy canonicalKey cols) := by
  unfold buildColumnMaps buildMapBy
  suffices h : ∀ (m1 m2 : ColumnMap),
      cols.foldl (fun maps col =>
        (mapAdd maps.1 (normalizeName col) col, mapAdd maps.2 (canonicalKey col) col)) (m1, m2)
        = (cols.foldl (fun m col => mapAdd m (normalizeName col) col) m1,
           cols.foldl (fun m col => mapAdd m (canonicalKey col) col) m2) from h [] []
  induction cols with
  | nil => intro m1 m2; rfl
  | cons c cs ih =>
    intro m1 m2
    simp only [List.foldl_cons]
    exact ih _ _

theorem lookup_mapAdd (m : ColumnMap) (k v k' : String) :
    (mapAdd m k v).lookup k' =
      if k' = k then some (((m.lookup k').getD []) ++ [v]) else m.lookup k' := by
  induction m with
  | nil =>
    by_cases h : k' = k
    · have hb : (k' == k) = true := beq_iff_eq.mpr h
      simp [mapAdd, List.lookup, h, hb]
    · have hb : (k' == k) = false := by rw [beq_eq_false_iff_ne]; exact h
      simp [mapAdd, List.lookup, h, hb]
  | cons e rest ih =>
    obtain ⟨a, bs⟩ := e
    by_cases hak : a = k
    · subst hak
      by_cases h : k' = a
      · have hb : (k' == a) = true := beq_iff_eq.mpr h
        simp [mapAdd, List.lookup, h, hb]
      · have hb : (k' == a) = false := by rw [beq_eq_false_iff_ne]; exact h
        simp [mapAdd, List.lookup, h, hb]
    · by_cases h : k' = a
      · subst h
        have hb : (k' == k') = true := beq_iff_eq.mpr rfl
        simp [mapAdd, List.lookup, hak, hb]
      · have hb : (k' == a) = false := by rw [beq_eq_false_iff_ne]; exact h
        simp [mapAdd, List.lookup, hak, h, hb, ih]

theorem lookup_foldl_mapAdd (f : String → String) (cols : List String)
    (m : ColumnMap) (k : String) :
    (cols.foldl (fun acc c => mapAdd acc (f c) c) m).lookup k =
      match m.lookup k, cols.filter (fun c => f c == k) with
      | none, [] => none
      | none, l => some l
      | some vs, l => some (vs ++ l) := by
  induction cols generalizing m with
  | nil => cases hm : m.lookup k <;> simp [hm]
  | cons c cs ih =>
    simp only [List.foldl_cons]
    rw [ih (mapAdd m (f c) c), lookup_mapAdd]
    by_cases h : k = f c
    · have hfc : (f c == k) = true := beq_iff_eq.mpr h.symm
      rw [if_pos h]
      simp only [List.filter_cons, hfc, if_true]
      cases hm : m.lookup k <;> simp [hm]
    · have hfc : (f c == k) = false := by
        rw [beq_eq_false_iff_ne]
        exact fun hh => h hh.symm
      rw [if_neg h]
      simp only [List.filter_cons, hfc, Bool.false_eq_true, if_false]

theorem lookup_buildMapBy (f : String → String) (cols : List String) (k : String) :
    (buildMapBy f cols).lookup k =
      match cols.filter (fun c => f c == k) with
      | [] => none
      | l => some l := by
  rw [buildMapBy, lookup_foldl_mapAdd]
  cases cols.filter (fun c => f c == k) <;> rfl

theorem head?_filter {α : Type} (p : α → Bool) (l : List α) :
    (l.filter p).head? = l.find? p := by
  induction l with
  | nil => rfl
  | cons x xs ih =>
    cases h : p x <;> simp [List.filter_cons, List.find?_cons, h, ih]

/-- C6: against the maps built from a tape's columns, column resolution
returns the first column whose normalized key equals the name's normalized
key when one exists, and only otherwise falls back to the first column with
a matching canonical key (else unresolved); parameter resolution substitutes
the name through the static alias map (identity when absent) and then
resolves the substituted name the same way. -/
theorem c6_resolution_priority_and_alias_substitution (name : String) (cols : List String) :
    resolveColumnName name (buildColumnMaps cols).1 (buildColumnMaps cols).2 =
      (match cols.find? (fun c => normalizeName c == normalizeName name) with
       | some c => some c
       | none => cols.find? (fun c => canonicalKey c == canonicalKey name))
    ∧ (∀ p : String,
        resolveParamName p (buildColumnMaps cols).1 (buildColumnMaps cols).2 =
          resolveColumnName (displayName p) (buildColumnMaps cols).1 (buildColumnMaps cols).2) := by
  refine ⟨?_, fun p => rfl⟩
  rw [buildColumnMaps_eq]
  unfold resolveColumnName
  simp only [lookup_buildMapBy]
  rw [← head?_filter (fun c => normalizeName c == normalizeName name) cols]
  rw [← head?_filter (fun c => canonicalKey c == canonicalKey name) cols]
  cases hn : cols.filter (fun c => normalizeName c == normalizeName name) with
  | cons x xs => rfl
  | nil =>
    cases hc : cols.filter (fun c => canonicalKey c == canonicalKey name) with
    | cons y ys => rfl
    | nil => rfl

/-! ## Claim C1 -/

theorem execNormal_ne_skip (r : Rule) (varargs : Bool) (columns : List String)
    (paramColumns : List (Option String)) (isWarning : Bool)
    (loanCol : Option String) (tape : Tape) (sk : SkipRecord) :
    execNormal r varargs columns paramColumns isWarning loanCol tape ≠
      Except.ok (RuleOutcome.skip sk) := by
  unfold execNormal
  cases h : collectExcept (applyRule r.func varargs columns paramColumns) tape.rows with
  | error e => simp [h]
  | ok mask => simp [h]

theorem execMissingRequired_ne_skip (r : Rule) (nmap cmap : ColumnMap)
    (loanCol : Option String) (tape : Tape) (sk : SkipRecord) :
    execMissingRequired r nmap cmap loanCol tape ≠
      Except.ok (RuleOutcome.skip sk) := by
  unfold execMissingRequired
  cases h : collectExcept (applyMissingRequired r.func (fixedParamColumns r nmap cmap))
      tape.rows with
  | error e => simp [h]
  | ok mask => simp [h]

/-- Every skip record a loop iteration emits carries that rule's name. -/
theorem ruleOutcome_skip_rule_eq (nmap cmap : ColumnMap) (loanCol : Option String)
    (tape : Tape) (r : Rule) (sk : SkipRecord)
    (h : ruleOutcome nmap cmap loanCol tape r = Except.ok (RuleOutcome.skip sk)) :
    sk.rule = r.name := by
  simp only [ruleOutcome] at h
  by_cases hv : r.varargs = true
  · rw [if_pos hv] at h
    by_cases he : ((VARARGS_RULE_COLUMNS.lookup r.name).getD []).isEmpty = true
    · rw [if_pos he] at h
      simp only [Except.ok.injEq, RuleOutcome.skip.injEq] at h
      rw [← h]
    · rw [if_neg he] at h
      by_cases hm :
          ¬ (varargsMissing ((VARARGS_RULE_COLUMNS.lookup r.name).getD []) nmap cmap).isEmpty
            = true
      · rw [if_pos hm] at h
        simp only [Except.ok.injEq, RuleOutcome.skip.injEq] at h
        rw [← h]
      · rw [if_neg hm] at h
        exact absurd h (execNormal_ne_skip _ _ _ _ _ _ _ _)
  · rw [if_neg hv] at h
    by_cases hc :
        ¬ (fixedMissing r nmap cmap).isEmpty = true ∧ r.name ∉ ALLOW_MISSING_PARAM_RULES
    · rw [if_pos hc] at h
      simp only [Except.ok.injEq, RuleOutcome.skip.injEq] at h
      rw [← h]
    · rw [if_neg hc] at h
      by_cases hn : r.name = "validate_missing_required_fields"
      · rw [if_pos hn] at h
        exact absurd h (execMissingRequired_ne_skip _ _ _ _ _ _)
      · rw [if_neg hn] at h
        exact absurd h (execNormal_ne_skip _ _ _ _ _ _ _ _)

/-- Elimination of a successful engine run into its per-rule outcomes. -/
theorem run_validations_ok_elim (registry : List Rule) (tape : Tape) (res : RunResult)
    (h : run_validations registry tape = .ok res) :
    ∃ outs,
      collectExcept
        (fun r =>
          match ruleOutcome (buildColumnMaps tape.columns).1 (buildColumnMaps tape.columns).2
              (resolveColumnName "loan_number" (buildColumnMaps tape.columns).1
                (buildColumnMaps tape.columns).2) tape r with
          | .error e => .error e
          | .ok o => .ok (r.name, o)) registry = .ok outs
      ∧ res = aggregate tape outs := by
  simp only [run_validations] at h
  cases hx : collectExcept
      (fun r =>
        match ruleOutcome (buildColumnMaps tape.columns).1 (buildColumnMaps tape.columns).2
            (resolveColumnName "loan_number" (buildColumnMaps tape.columns).1
              (buildColumnMaps tape.columns).2) tape r with
        | .error e => .error e
        | .ok o => .ok (r.name, o)) registry with
  | error e =>
    rw [hx] at h
    cases h
  | ok outs =>
    rw [hx] at h
    simp only [Except.ok.injEq] at h
    exact ⟨outs, rfl, h.symm⟩

/-- Eliminate one step of the rule loop: the output pair carries the rule's
name and a successful outcome. -/
theorem step_ok_elim (nmap cmap : ColumnMap) (loanCol : Option String) (tape : Tape)
    (r : Rule) (no : String × RuleOutcome)
    (h : (match ruleOutcome nmap cmap loanCol tape r with
          | .error e => (.error e : Except Exc (String × RuleOutcome))
          | .ok o => .ok (r.name, o)) = .ok no) :
    no.1 = r.name ∧ ruleOutcome nmap cmap loanCol tape r = .ok no.2 := by
  cases hro : ruleOutcome nmap cmap loanCol tape r with
  | error e =>
    rw [hro] at h
    cases h
  | ok o =>
    rw [hro] at h
    simp only [Except.ok.injEq] at h
    rw [← h]
    exact ⟨rfl, rfl⟩

/-- Counting a rule name across the three result groups equals counting it
among the loop outputs. -/
theorem aggregate_countP (tape : Tape) (outs : List (String × RuleOutcome)) (n : String)
    (hskip : ∀ no ∈ outs, ∀ sk, no.2 = RuleOutcome.skip sk → sk.rule = no.1) :
    (aggregate tape outs).rule_summary.countP (fun e => e.rule == n)
    + (aggregate tape outs).warning_summary.countP (fun e => e.rule == n)
    + (aggregate tape outs).skipped_rules.countP (fun sk => sk.rule == n)
    = outs.countP (fun no => no.1 == n) := by
  simp only [aggregate]
  rw [(sortSummaries_perm _).countP_eq, (sortSummaries_perm _).countP_eq,
    (sortSkips_perm _).countP_eq]
  revert hskip
  induction outs with
  | nil => intro _; rfl
  | cons no rest ih =>
    intro hskip
    have hrest := ih (fun x hx => hskip x (by simp [hx]))
    obtain ⟨nm, o⟩ := no
    cases o with
    | skip sk =>
      have hsk : sk.rule = nm := hskip (nm, .skip sk) (by simp) sk rfl
      cases hb : nm == n with
      | true =>
        simp only [List.filterMap_cons, List.countP_cons, hsk, hb, if_true]
        omega
      | false =>
        simp only [List.filterMap_cons, List.countP_cons, hsk, hb, Bool.false_eq_true,
          if_false]
        omega
    | missingReq w c recs =>
      cases w with
      | false =>
        cases hb : nm == n with
        | true =>
          simp only [List.filterMap_cons, List.countP_cons, hb, if_true]
          omega
        | false =>
          simp only [List.filterMap_cons, List.countP_cons, hb, Bool.false_eq_true, if_false]
          omega
      | true =>
        cases hb : nm == n with
        | true =>
          simp only [List.filterMap_cons, List.countP_cons, hb, if_true]
          omega
        | false =>
          simp only [List.filterMap_cons, List.countP_cons, hb, Bool.false_eq_true, if_false]
          omega
    | exec w c recs =>
      cases w with
      | false =>
        cases hb : nm == n with
        | true =>
          simp only [List.filterMap_cons, List.countP_cons, hb, if_true]
          omega
        | false =>
          simp only [List.filterMap_cons, List.countP_cons, hb, Bool.false_eq_true, if_false]
          omega
      | true =>
        cases hb : nm == n with
        | true =>
          simp only [List.filterMap_cons, List.countP_cons, hb, if_true]
          omega
        | false =>
          simp only [List.filterMap_cons, List.countP_cons, hb, Bool.false_eq_true, if_false]
          omega

/-- C1: for every tape and catalogue (with its dict-given distinct rule
names), each rule of the catalogue appears in exactly one of the result's
three rule groups — the issue per-rule summary, the warning per-rule
summary, or the skipped-rules list. -/
theorem c1_each_rule_in_exactly_one_group (registry : List Rule) (tape : Tape)
    (res : RunResult) (hnd : (registry.map Rule.name).Nodup)
    (hok : run_validations registry tape = .ok res)
    (r : Rule) (hr : r ∈ registry) :
    res.rule_summary.countP (fun e => e.rule == r.name)
    + res.warning_summary.countP (fun e => e.rule == r.name)
    + res.skipped_rules.countP (fun sk => sk.rule == r.name) = 1 := by
  obtain ⟨outs, houts, hres⟩ := run_validations_ok_elim registry tape res hok
  subst hres
  have hall := collectExcept_forall₂ _ registry outs houts
  have hfst : outs.map Prod.fst = registry.map Rule.name := by
    clear hr hnd houts hok
    induction hall with
    | nil => rfl
    | cons hpair _ ih =>
      simp only [List.map_cons, ih]
      rw [(step_ok_elim _ _ _ _ _ _ hpair).1]
  have hskip : ∀ no ∈ outs, ∀ sk, no.2 = RuleOutcome.skip sk → sk.rule = no.1 := by
    clear hr hnd houts hok hfst
    induction hall with
    | nil => intro no hno; cases hno
    | cons hpair _ ih =>
      intro no hno sk hsk
      rcases List.mem_cons.mp hno with heq | hmem
      · subst heq
        obtain ⟨h1, h2⟩ := step_ok_elim _ _ _ _ _ _ hpair
        rw [hsk] at h2
        rw [ruleOutcome_skip_rule_eq _ _ _ _ _ _ h2, h1]
      · exact ih no hmem sk hsk
  rw [aggregate_countP tape outs r.name hskip]
  have hmap : outs.countP (fun no => no.1 == r.name)
      = (outs.map Prod.fst).countP (fun nm => nm == r.name) := by
    rw [List.countP_map]
    rfl
  rw [hmap, hfst]
  have hcount : (registry.map Rule.name).countP (fun nm => nm == r.name)
      = (registry.map Rule.name).count r.name := by
    simp [List.count]
  rw [hcount]
  exact List.count_eq_one_of_mem hnd (List.mem_map.mpr ⟨r, hr, rfl⟩)

/-- Witness registry for C1: one skipped rule. -/
def c1Rule : Rule :=
  { name := "validate_demo_once", varargs := false, varargsName := "",
    params := ["zz_unresolvable"], func := fun _ => PredResult.ok false }

/-- Witness for C1 at a concrete one-rule catalogue and empty tape. -/
theorem c1_each_rule_in_exactly_one_group_witness :
    ({ row_count := 0, columns := [], issues := [], warnings := [],
       missing_required_fields := [], rule_summary := [], warning_summary := [],
       skipped_rules := [{ rule := "validate_demo_once", reason := "missing_columns",
                           missing_columns := "zz_unresolvable" }] } : RunResult).rule_summary.countP
        (fun e => e.rule == c1Rule.name)
    + ({ row_count := 0, columns := [], issues := [], warnings := [],
         missing_required_fields := [], rule_summary := [], warning_summary := [],
         skipped_rules := [{ rule := "validate_demo_once", reason := "missing_columns",
                             missing_columns := "zz_unresolvable" }] } : RunResult).warning_summary.countP
        (fun e => e.rule == c1Rule.name)
    + ({ row_count := 0, columns := [], issues := [], warnings := [],
         missing_required_fields := [], rule_summary := [], warning_summary := [],
         skipped_rules := [{ rule := "validate_demo_once", reason := "missing_columns",
                             missing_columns := "zz_unresolvable" }] } : RunResult).skipped_rules.countP
        (fun sk => sk.rule == c1Rule.name) = 1 :=
  c1_each_rule_in_exactly_one_group [c1Rule] { columns := [], rows := [] } _
    (by decide) rfl c1Rule (List.mem_singleton.mpr rfl)

/-! ## Claim C9 -/

/-- Characters that can appear in a normalized name: lowercase ASCII
letters, digits, and underscore. -/
def okChar (c : Char) : Bool :=
  c.isLower || c.isDigit || c == '_'

theorem char_toNat_ofNat (n : Nat) (h : n < 55296) : (Char.ofNat n).toNat = n := by
  have hv : n.isValidChar := Or.inl h
  simp [Char.ofNat, hv, Char.ofNatAux, Char.toNat, UInt32.toNat, BitVec.toNat_ofNatLt]

theorem char_eq_of_toNat_eq {c d : Char} (h : c.toNat = d.toNat) : c = d := by
  apply Char.eq_of_val_eq
  apply UInt32.eq_of_toBitVec_eq
  apply BitVec.eq_of_toNat_eq
  exact h

theorem isLower_iff_toNat (c : Char) : c.isLower = true ↔ 97 ≤ c.toNat ∧ c.toNat ≤ 122 := by
  simp only [Char.isLower, Bool.and_eq_true, decide_eq_true_eq]
  constructor
  · intro h; exact ⟨h.1, h.2⟩
  · intro h; exact ⟨h.1, h.2⟩

theorem isDigit_iff_toNat (c : Char) : c.isDigit = true ↔ 48 ≤ c.toNat ∧ c.toNat ≤ 57 := by
  simp only [Char.isDigit, Bool.and_eq_true, decide_eq_true_eq]
  constructor
  · intro h; exact ⟨h.1, h.2⟩
  · intro h; exact ⟨h.1, h.2⟩

theorem isUpper_iff_toNat (c : Char) : c.isUpper = true ↔ 65 ≤ c.toNat ∧ c.toNat ≤ 90 := by
  simp only [Char.isUpper, Bool.and_eq_true, decide_eq_true_eq]
  constructor
  · intro h; exact ⟨h.1, h.2⟩
  · intro h; exact ⟨h.1, h.2⟩

theorem isAlphanum_iff_toNat (c : Char) : c.isAlphanum = true ↔
    (65 ≤ c.toNat ∧ c.toNat ≤ 90) ∨ (97 ≤ c.toNat ∧ c.toNat ≤ 122)
      ∨ (48 ≤ c.toNat ∧ c.toNat ≤ 57) := by
  simp only [Char.isAlphanum, Char.isAlpha, Bool.or_eq_true, isUpper_iff_toNat,
    isLower_iff_toNat, isDigit_iff_toNat, or_assoc]

theorem underscore_iff_toNat (c : Char) : c = '_' ↔ c.toNat = 95 := by
  constructor
  · intro h; subst h; rfl
  · intro h; exact char_eq_of_toNat_eq h

theorem okChar_iff_toNat (c : Char) : okChar c = true ↔
    (97 ≤ c.toNat ∧ c.toNat ≤ 122) ∨ (48 ≤ c.toNat ∧ c.toNat ≤ 57) ∨ c.toNat = 95 := by
  simp only [okChar, Bool.or_eq_true, isLower_iff_toNat, isDigit_iff_toNat, beq_iff_eq,
    underscore_iff_toNat, or_assoc]

theorem toLower_toNat_of_upper (c : Char) (h : 65 ≤ c.toNat ∧ c.toNat ≤ 90) :
    (Char.toLower c).toNat = c.toNat + 32 := by
  show (if c.toNat ≥ 65 ∧ c.toNat ≤ 90 then Char.ofNat (c.toNat + 32) else c).toNat
    = c.toNat + 32
  rw [if_pos ⟨h.1, h.2⟩]
  exact char_toNat_ofNat _ (by omega)

theorem toLower_eq_self_of_not_upper (c : Char) (h : ¬ (65 ≤ c.toNat ∧ c.toNat ≤ 90)) :
    Char.toLower c = c := by
  show (if c.toNat ≥ 65 ∧ c.toNat ≤ 90 then Char.ofNat (c.toNat + 32) else c) = c
  rw [if_neg (fun hc => h ⟨hc.1, hc.2⟩)]

theorem toLower_ok_of_alnum (c : Char) (h : (Char.toLower c).isAlphanum = true) :
    okChar (Char.toLower c) = true := by
  by_cases hu : 65 ≤ c.toNat ∧ c.toNat ≤ 90
  · have ht := toLower_toNat_of_upper c hu
    rw [okChar_iff_toNat]
    left
    omega
  · rw [toLower_eq_self_of_not_upper c hu] at h ⊢
    rw [okChar_iff_toNat]
    rw [isAlphanum_iff_toNat] at h
    rcases h with h | h | h
    · exact absurd h hu
    · exact Or.inl h
    · exact Or.inr (Or.inl h)

theorem okChar_toLower_self (c : Char) (h : okChar c = true) : Char.toLower c = c := by
  rw [okChar_iff_toNat] at h
  apply toLower_eq_self_of_not_upper
  omega

theorem toNat_of_isWhitespace (c : Char) (h : c.isWhitespace = true) :
    c.toNat = 32 ∨ c.toNat = 9 ∨ c.toNat = 13 ∨ c.toNat = 10 := by
  simp only [Char.isWhitespace, Bool.or_eq_true, decide_eq_true_eq] at h
  rcases h with ((h | h) | h) | h <;> subst h <;> decide

theorem okChar_not_whitespace (c : Char) (h : okChar c = true) : c.isWhitespace = false := by
  rw [okChar_iff_toNat] at h
  cases hw : c.isWhitespace with
  | false => rfl
  | true =>
    have := toNat_of_isWhitespace c hw
    omega

theorem okChar_underscore_of_not_alnum (c : Char) (h : okChar c = true)
    (hn : c.isAlphanum = false) : c = '_' := by
  rw [okChar_iff_toNat] at h
  rw [underscore_iff_toNat]
  have hnot : ¬ ((65 ≤ c.toNat ∧ c.toNat ≤ 90) ∨ (97 ≤ c.toNat ∧ c.toNat ≤ 122)
      ∨ (48 ≤ c.toNat ∧ c.toNat ≤ 57)) := by
    rw [← isAlphanum_iff_toNat]
    simp [hn]
  omega

theorem okChar_alnum_of_ne_underscore (c : Char) (h : okChar c = true) (hne : c ≠ '_') :
    c.isAlphanum = true := by
  rw [okChar_iff_toNat] at h
  rw [isAlphanum_iff_toNat]
  have hnot : ¬ c.toNat = 95 := fun hh => hne ((underscore_iff_toNat c).mpr hh)
  omega

/-! ### Membership facts for the normalization passes -/

theorem mem_collapseNonAlnum {c : Char} :
    ∀ (b : Bool) (l : List Char), c ∈ collapseNonAlnum b l →
      c = '_' ∨ (c ∈ l ∧ c.isAlphanum = true) := by
  intro b l
  induction l generalizing b with
  | nil => intro h; cases h
  | cons d rest ih =>
    intro h
    by_cases hd : d.isAlphanum = true
    · simp only [collapseNonAlnum, hd, if_true] at h
      rcases List.mem_cons.mp h with heq | hmem
      · subst heq
        exact Or.inr ⟨by simp, hd⟩
      · rcases ih false hmem with h1 | ⟨h1, h2⟩
        · exact Or.inl h1
        · exact Or.inr ⟨by simp [h1], h2⟩
    · cases b with
      | true =>
        simp only [collapseNonAlnum, hd, Bool.false_eq_true, if_false, if_true] at h
        rcases ih true h with h1 | ⟨h1, h2⟩
        · exact Or.inl h1
        · exact Or.inr ⟨by simp [h1], h2⟩
      | false =>
        simp only [collapseNonAlnum, hd, Bool.false_eq_true, if_false] at h
        rcases List.mem_cons.mp h with heq | hmem
        · exact Or.inl heq
        · rcases ih true hmem with h1 | ⟨h1, h2⟩
          · exact Or.inl h1
          · exact Or.inr ⟨by simp [h1], h2⟩

theorem mem_collapseUnd {c : Char} :
    ∀ (b : Bool) (l : List Char), c ∈ collapseUnd b l → c ∈ l := by
  intro b l
  induction l generalizing b with
  | nil => intro h; cases h
  | cons d rest ih =>
    intro h
    by_cases hd : d = '_'
    · subst hd
      cases b with
      | true =>
        simp only [collapseUnd, if_pos rfl, if_true] at h
        exact List.mem_cons_of_mem _ (ih true h)
      | false =>
        simp only [collapseUnd, if_pos rfl, Bool.false_eq_true, if_false] at h
        rcases List.mem_cons.mp h with heq | hmem
        · simp [heq]
        · exact List.mem_cons_of_mem _ (ih true hmem)
    · simp only [collapseUnd, hd, if_false] at h
      rcases List.mem_cons.mp h with heq | hmem
      · simp [heq]
      · exact List.mem_cons_of_mem _ (ih false hmem)

theorem mem_stripEnds {c : Char} (p : Char → Bool) (l : List Char)
    (h : c ∈ stripEnds p l) : c ∈ l := by
  unfold stripEnds at h
  rw [List.mem_reverse] at h
  have h1 := (List.dropWhile_sublist p).subset h
  rw [List.mem_reverse] at h1
  exact (List.dropWhile_sublist p).subset h1

/-- Every character of a normalized name is a lowercase letter, a digit, or
an underscore. -/
theorem cleanList_ok (l : List Char) : ∀ c ∈ cleanList l, okChar c = true := by
  intro c hc
  unfold cleanList at hc
  have h1 := mem_collapseUnd _ _ hc
  have h2 := mem_stripEnds _ _ h1
  rcases mem_collapseNonAlnum _ _ h2 with h3 | ⟨h3, halnum⟩
  · subst h3
    rfl
  · obtain ⟨d, _, hdc⟩ := List.mem_map.mp h3
    rw [← hdc] at halnum ⊢
    exact toLower_ok_of_alnum d halnum

/-! ### No-adjacent-underscores invariant -/

theorem collapseUnd_cons_und (b : Bool) (rest : List Char) :
    collapseUnd b ('_' :: rest) =
      if b then collapseUnd true rest else '_' :: collapseUnd true rest := by
  cases b <;> simp [collapseUnd]

theorem collapseUnd_cons_ne (b : Bool) (d : Char) (rest : List Char) (hd : d ≠ '_') :
    collapseUnd b (d :: rest) = d :: collapseUnd false rest := by
  cases b <;> simp [collapseUnd, hd]

theorem collapseNonAlnum_cons_alnum (b : Bool) (d : Char) (rest : List Char)
    (hd : d.isAlphanum = true) :
    collapseNonAlnum b (d :: rest) = d :: collapseNonAlnum false rest := by
  cases b <;> simp [collapseNonAlnum, hd]

theorem collapseNonAlnum_cons_not (b : Bool) (d : Char) (rest : List Char)
    (hd : d.isAlphanum = false) :
    collapseNonAlnum b (d :: rest) =
      if b then collapseNonAlnum true rest else '_' :: collapseNonAlnum true rest := by
  cases b <;> simp [collapseNonAlnum, hd]

theorem collapseUnd_head_true_ne :
    ∀ (l : List Char) (c : Char), (collapseUnd true l).head? = some c → c ≠ '_' := by
  intro l
  induction l with
  | nil => intro c h; cases h
  | cons d rest ih =>
    intro c h
    by_cases hd : d = '_'
    · subst hd
      simp only [collapseUnd, if_pos rfl, if_true] at h
      exact ih c h
    · simp only [collapseUnd, hd, if_false] at h
      rw [List.head?_cons] at h
      injection h with h
      subst h
      exact hd

theorem collapseUnd_chain :
    ∀ (b : Bool) (l : List Char),
      List.Chain' (fun a b => ¬(a = '_' ∧ b = '_')) (collapseUnd b l) := by
  intro b l
  induction l generalizing b with
  | nil => simp [collapseUnd]
  | cons d rest ih =>
    by_cases hd : d = '_'
    · subst hd
      rw [collapseUnd_cons_und]
      cases b with
      | true =>
        simpa only [if_true] using ih true
      | false =>
        simp only [Bool.false_eq_true, if_false]
        rw [List.chain'_cons']
        refine ⟨?_, ih true⟩
        intro y hy hcontra
        exact collapseUnd_head_true_ne rest y hy hcontra.2
    · rw [collapseUnd_cons_ne b d rest hd]
      rw [List.chain'_cons']
      exact ⟨fun y _ hcontra => hd hcontra.1, ih false⟩

/-! ### Head and last characters of the passes -/

theorem head?_dropWhile_false (p : Char → Bool) :
    ∀ (l : List Char) (c : Char), (l.dropWhile p).head? = some c → p c = false := by
  intro l
  induction l with
  | nil => intro c h; cases h
  | cons d rest ih =>
    intro c h
    by_cases hd : p d = true
    · rw [List.dropWhile_cons, if_pos hd] at h
      exact ih c h
    · rw [List.dropWhile_cons, if_neg hd] at h
      rw [List.head?_cons] at h
      injection h with h
      subst h
      simpa using hd

theorem getLast?_dropWhile_of_ne_nil (p : Char → Bool) :
    ∀ (l : List Char), l.dropWhile p ≠ [] → (l.dropWhile p).getLast? = l.getLast? := by
  intro l
  induction l with
  | nil => intro h; exact absurd rfl h
  | cons d rest ih =>
    intro h
    by_cases hd : p d = true
    · rw [List.dropWhile_cons, if_pos hd] at h ⊢
      rw [ih h]
      have hrest : rest ≠ [] := by
        intro hr
        rw [hr] at h
        exact h rfl
      cases rest with
      | nil => exact absurd rfl hrest
      | cons e r2 => rw [List.getLast?_cons_cons]
    · rw [List.dropWhile_cons, if_neg hd]

theorem getLast?_stripEnds_false (p : Char → Bool) (l : List Char) (c : Char)
    (h : (stripEnds p l).getLast? = some c) : p c = false := by
  unfold stripEnds at h
  rw [List.getLast?_reverse] at h
  exact head?_dropWhile_false p _ c h

theorem head?_stripEnds_false (p : Char → Bool) (l : List Char) (c : Char)
    (h : (stripEnds p l).head? = some c) : p c = false := by
  unfold stripEnds at h
  rw [List.head?_reverse] at h
  have hne : (l.dropWhile p).reverse.dropWhile p ≠ [] := by
    intro hn
    rw [hn] at h
    cases h
  rw [getLast?_dropWhile_of_ne_nil p _ hne] at h
  rw [List.getLast?_reverse] at h
  exact head?_dropWhile_false p _ c h

theorem collapseUnd_getLast :
    ∀ (l : List Char) (b : Bool) (c : Char), l.getLast? = some c → c ≠ '_' →
      (collapseUnd b l).getLast? = some c := by
  intro l
  induction l with
  | nil => intro b c h; cases h
  | cons d rest ih =>
    intro b c h hne
    cases rest with
    | nil =>
      have hd : d = c := by simpa using h
      subst hd
      rw [collapseUnd_cons_ne b d [] hne]
      simp [collapseUnd]
    | cons e rest2 =>
      have htail : (e :: rest2).getLast? = some c := by
        rw [List.getLast?_cons_cons] at h
        exact h
      by_cases hd : d = '_'
      · subst hd
        rw [collapseUnd_cons_und]
        cases b with
        | true =>
          simp only [if_true]
          exact ih true c htail hne
        | false =>
          simp only [Bool.false_eq_true, if_false]
          have hinner := ih true c htail hne
          cases hX : collapseUnd true (e :: rest2) with
          | nil => rw [hX] at hinner; simp at hinner
          | cons x xs =>
            rw [hX] at hinner
            rw [List.getLast?_cons_cons]
            exact hinner
      · rw [collapseUnd_cons_ne b d (e :: rest2) hd]
        have hinner := ih false c htail hne
        cases hX : collapseUnd false (e :: rest2) with
        | nil => rw [hX] at hinner; simp at hinner
        | cons x xs =>
          rw [hX] at hinner
          rw [List.getLast?_cons_cons]
          exact hinner

/-! ### The passes are the identity on already-normalized text -/

theorem dropWhile_eq_self_of_head {p : Char → Bool} (l : List Char)
    (h : ∀ c, l.head? = some c → p c = false) : l.dropWhile p = l := by
  cases l with
  | nil => rfl
  | cons d rest =>
    rw [List.dropWhile_cons, h d rfl]
    simp

theorem stripEnds_eq_self_of_ends (p : Char → Bool) (l : List Char)
    (hh : ∀ c, l.head? = some c → p c = false)
    (hl : ∀ c, l.getLast? = some c → p c = false) :
    stripEnds p l = l := by
  unfold stripEnds
  rw [dropWhile_eq_self_of_head l hh]
  rw [dropWhile_eq_self_of_head l.reverse
    (fun c hc => hl c (by rwa [List.head?_reverse] at hc))]
  exact List.reverse_reverse l

theorem stripEnds_eq_self_of_all (p : Char → Bool) (l : List Char)
    (h : ∀ c ∈ l, p c = false) : stripEnds p l = l := by
  apply stripEnds_eq_self_of_ends
  · intro c hc
    exact h c (List.mem_of_mem_head? hc)
  · intro c hc
    refine h c ?_
    rw [← List.head?_reverse] at hc
    rw [← List.mem_reverse]
    exact List.mem_of_mem_head? hc

theorem map_toLower_eq_self (l : List Char) (h : ∀ c ∈ l, okChar c = true) :
    l.map Char.toLower = l := by
  have hcongr := List.map_congr_left (fun c hc => okChar_toLower_self c (h c hc))
  simpa using hcongr

theorem collapseNonAlnum_flag (l : List Char)
    (h : ∀ c, l.head? = some c → c.isAlphanum = true) :
    collapseNonAlnum true l = collapseNonAlnum false l := by
  cases l with
  | nil => rfl
  | cons d rest => simp [collapseNonAlnum, h d rfl]

theorem collapseNonAlnum_eq_self :
    ∀ (l : List Char), (∀ c ∈ l, okChar c = true) →
      List.Chain' (fun a b => ¬(a = '_' ∧ b = '_')) l →
      collapseNonAlnum false l = l := by
  intro l
  induction l with
  | nil => intro _ _; rfl
  | cons d rest ih =>
    intro hok hch
    have hokd := hok d (by simp)
    rw [List.chain'_cons'] at hch
    have hrest := ih (fun c hc => hok c (by simp [hc])) hch.2
    by_cases hd : d = '_'
    · subst hd
      have hna : Char.isAlphanum '_' = false := by decide
      rw [collapseNonAlnum_cons_not false _ rest hna]
      simp only [Bool.false_eq_true, if_false]
      rw [collapseNonAlnum_flag rest (fun c hc =>
        okChar_alnum_of_ne_underscore c (hok c (by simp [List.mem_of_mem_head? hc]))
          (fun he => (hch.1 c hc) ⟨rfl, he⟩))]
      rw [hrest]
    · have halnum := okChar_alnum_of_ne_underscore d hokd hd
      rw [collapseNonAlnum_cons_alnum false d rest halnum]
      rw [hrest]

theorem collapseUnd_flag (l : List Char)
    (h : ∀ c, l.head? = some c → c ≠ '_') :
    collapseUnd true l = collapseUnd false l := by
  cases l with
  | nil => rfl
  | cons d rest => simp [collapseUnd, h d rfl]

theorem collapseUnd_eq_self :
    ∀ (l : List Char), List.Chain' (fun a b => ¬(a = '_' ∧ b = '_')) l →
      collapseUnd false l = l := by
  intro l
  induction l with
  | nil => intro _; rfl
  | cons d rest ih =>
    intro hch
    rw [List.chain'_cons'] at hch
    have hrest := ih hch.2
    by_cases hd : d = '_'
    · subst hd
      rw [collapseUnd_cons_und]
      simp only [Bool.false_eq_true, if_false]
      rw [collapseUnd_flag rest (fun c hc he => (hch.1 c hc) ⟨rfl, he⟩)]
      rw [hrest]
    · rw [collapseUnd_cons_ne false d rest hd]
      rw [hrest]

/-! ### Idempotence -/

theorem cleanList_head_ne_und (l : List Char) (c : Char)
    (h : (cleanList l).head? = some c) : c ≠ '_' := by
  unfold cleanList at h
  cases hm : stripEnds (fun c => c = '_')
      (collapseNonAlnum false ((stripEnds Char.isWhitespace l).map Char.toLower)) with
  | nil =>
    rw [hm] at h
    cases h
  | cons d rest =>
    have hd : decide (d = '_') = false := by
      refine head?_stripEnds_false (fun c => decide (c = '_'))
        (collapseNonAlnum false ((stripEnds Char.isWhitespace l).map Char.toLower)) d ?_
      rw [hm]
      rfl
    have hdne : d ≠ '_' := of_decide_eq_false hd
    rw [hm] at h
    rw [collapseUnd_cons_ne false d rest hdne] at h
    rw [List.head?_cons] at h
    injection h with h
    subst h
    exact hdne

theorem cleanList_getLast_ne_und (l : List Char) (c : Char)
    (h : (cleanList l).getLast? = some c) : c ≠ '_' := by
  unfold cleanList at h
  cases hm : (stripEnds (fun c => c = '_')
      (collapseNonAlnum false ((stripEnds Char.isWhitespace l).map Char.toLower))).getLast? with
  | none =>
    have hnil : stripEnds (fun c => c = '_')
        (collapseNonAlnum false ((stripEnds Char.isWhitespace l).map Char.toLower)) = [] :=
      List.getLast?_eq_none_iff.mp hm
    rw [hnil] at h
    cases h
  | some d =>
    have hd : decide (d = '_') = false :=
      getLast?_stripEnds_false (fun c => decide (c = '_')) _ d hm
    have hdne : d ≠ '_' := of_decide_eq_false hd
    have hout := collapseUnd_getLast _ false d hm hdne
    rw [hout] at h
    injection h with h
    subst h
    exact hdne

/-- Applying the whole normalization pipeline to an already-normalized
character list is the identity. -/
theorem cleanList_idem (l : List Char) : cleanList (cleanList l) = cleanList l := by
  have hok : ∀ c ∈ cleanList l, okChar c = true := cleanList_ok l
  have hchain : List.Chain' (fun a b => ¬(a = '_' ∧ b = '_')) (cleanList l) := by
    unfold cleanList
    exact collapseUnd_chain false _
  have hws : ∀ c ∈ cleanList l, Char.isWhitespace c = false :=
    fun c hc => okChar_not_whitespace c (hok c hc)
  have hstep : cleanList (cleanList l)
      = collapseUnd false (stripEnds (fun c => c = '_')
          (collapseNonAlnum false
            ((stripEnds Char.isWhitespace (cleanList l)).map Char.toLower))) := rfl
  rw [hstep]
  rw [stripEnds_eq_self_of_all _ _ hws]
  rw [map_toLower_eq_self _ hok]
  rw [collapseNonAlnum_eq_self _ hok hchain]
  rw [stripEnds_eq_self_of_ends _ _
    (fun c hc => decide_eq_false (cleanList_head_ne_und l c hc))
    (fun c hc => decide_eq_false (cleanList_getLast_ne_und l c hc))]
  exact collapseUnd_eq_self _ hchain

/-- C9: column-name normalization is idempotent (and total): for every
string `n`, `normalize(normalize(n)) = normalize(n)`, and hence normalizing
an already-normalized column list changes nothing. -/
theorem c9_normalize_idempotent :
    (∀ s : String, normalizeName (normalizeName s) = normalizeName s)
    ∧ (∀ cols : List String,
        normalize_columns (normalize_columns cols) = normalize_columns cols) := by
  have hsingle : ∀ s : String, normalizeName (normalizeName s) = normalizeName s := by
    intro s
    unfold normalizeName
    have hdata : (String.mk (cleanList s.data)).data = cleanList s.data := rfl
    rw [hdata, cleanList_idem]
  refine ⟨hsingle, ?_⟩
  intro cols
  unfold normalize_columns
  rw [List.map_map]
  refine List.map_congr_left ?_
  intro c _
  have := hsingle c
  unfold normalizeName at this
  simpa using this

end ASFValidator
